import Mathlib

/-!
# Live-variable analysis (lib/LivenessAnalysis.cpp)

A shallow embedding of `LivenessAnalysis::computeGenKillVariables` and of the
fixpoint loop of `LivenessAnalysis::run`, followed by theorems about them.

Modelling decisions.

* A `llvm::Value*` is a `Value`: its constructor records which of the three
  disjoint LLVM classes the pointee belongs to (`Constant`, `Instruction`, or
  any other non-constant value such as an `Argument`), the number is the
  identity of the pointee.  `isa<Constant>` is `Value.isConstant`.
* An instruction is itself a value (`Instruction.value`), never a constant.
* A `BasicBlock*` is a natural number, the identity of the block.  The four
  maps of the analysis object are total functions from block identities to
  sets; `operator[]` on a key that was never written yields the empty set.
* `VarSet` is a finite set of values; `!=` on it is set inequality.
* The blocks of a function are distinct objects.  Theorems that depend on it
  assume that the identities of the blocks of the function are pairwise
  distinct, `(fn.map BasicBlock.id).Nodup`.
* The loop `while (changed)` is `whileChanged`, which takes a bound on the
  number of sweeps; termination is the theorem that some bound makes it return.
* The code has no error path: it never tests a successor reference and only
  uses block pointers as map keys, so `run` has no failure value other than
  running out of the bound.
* `run` is the code on a fresh analysis object; `runOn` is the same code on an
  analysis object in any state, as the code never clears the maps.
* A second embedding of the same lines (`EntryMap`, `stepBlockE`, `runE`) keeps
  the entries of the maps, so that the entry `operator[]` creates for a key
  that has none is visible; it carries the function along in the state.  It
  reads as the first embedding (`runE_values`).
* `whileChangedInOrder` (the loop with the visiting order as a parameter) and
  `whileInChanged` (the loop that stops when no `liveIn` set changed) are not
  in the code; they are the variants the spec describes, compared here with
  the loop of the code.
-/

namespace Liveness

/-- An LLVM value, by class and identity. -/
inductive Value where
  | constant (n : Nat)
  | argument (n : Nat)
  | instruction (n : Nat)
  deriving DecidableEq, Repr

/-- The test `isa<Constant>(v)`. -/
def Value.isConstant : Value → Bool
  | Value.constant _ => true
  | Value.argument _ => false
  | Value.instruction _ => false

/-- An instruction: its identity, whether `isTerminator()` holds, whether
`getType()` is the void type, and its operand list. -/
structure Instruction where
  id : Nat
  isTerminator : Bool
  isVoid : Bool
  operands : List Value
  deriving DecidableEq, Repr

/-- The instruction seen as a value (an `Instruction*` converted to `Value*`). -/
def Instruction.value (i : Instruction) : Value := Value.instruction i.id

/-- A basic block: its identity, its instructions in order, and the identities
of the blocks `successors(&bb)` enumerates. -/
structure BasicBlock where
  id : Nat
  insts : List Instruction
  succs : List Nat
  deriving DecidableEq, Repr

/-- A function is the list of its basic blocks in layout order. -/
abbrev Function := List BasicBlock

/-- Modelled from the spec: the type `VarSet` is declared in `LivenessAnalysis.h`,
which is not among the sources.  The spec describes it as a set of variable
identities, insertion order irrelevant, with union, membership test and set
equality; the code uses `insert`, `count`, `clear`, iteration and `!=`. -/
abbrev VarSet := Finset Value

/-- Modelled from the spec: the type of the members `use`, `def`, `liveIn` and
`liveOut` is declared in `LivenessAnalysis.h`, which is not among the sources.
The spec describes each as a mapping from basic blocks to `VarSet`, empty for
every block at first; the code only indexes them with `operator[]`. -/
abbrev VarMap := Nat → VarSet

/-- The state of the analysis object: the four maps `use`, `def`, `liveIn`,
`liveOut` (named `use_` and `def_` here, as the bare words are reserved). -/
structure LivenessAnalysis where
  use_ : VarMap
  def_ : VarMap
  liveIn : VarMap
  liveOut : VarMap

/-- A freshly constructed analysis object: all maps empty. -/
def LivenessAnalysis.fresh : LivenessAnalysis :=
  { use_ := fun _ => ∅, def_ := fun _ => ∅, liveIn := fun _ => ∅, liveOut := fun _ => ∅ }

/-- The statement `m[k].insert(v)`. -/
def VarMap.insertAt (m : VarMap) (k : Nat) (v : Value) : VarMap :=
  fun j => if j = k then insert v (m j) else m j

/-- The statement `m[k] = s`. -/
def VarMap.assign (m : VarMap) (k : Nat) (s : VarSet) : VarMap :=
  fun j => if j = k then s else m j

/-- Lines 80-83: the loop over the operands of one instruction of block `b`. -/
def addOperands (b : Nat) (u : VarMap) (ops : List Value) : VarMap :=
  ops.foldl (fun m op => if !op.isConstant then VarMap.insertAt m b op else m) u

/-- Lines 76-89: the body of the loop over the instructions of block `b`. -/
def genKillInst (b : Nat) (la : LivenessAnalysis) (inst : Instruction) : LivenessAnalysis :=
  if inst.isTerminator then la
  else
    let la1 := { la with use_ := addOperands b la.use_ inst.operands }
    if !inst.isVoid then
      if !inst.value.isConstant then
        { la1 with def_ := VarMap.insertAt la1.def_ b inst.value }
      else la1
    else la1

/-- Lines 74-104: the body of the loop over the blocks. -/
def genKillBlock (la : LivenessAnalysis) (bb : BasicBlock) : LivenessAnalysis :=
  bb.insts.foldl (genKillInst bb.id) la

/-- The member function `computeGenKillVariables`. -/
def computeGenKillVariables (fn : Function) (la : LivenessAnalysis) : LivenessAnalysis :=
  fn.foldl genKillBlock la

/-- Lines 39-44: the new `liveOut` set of a block, the union of the current
`liveIn` sets of its successors. -/
def unionSuccIn (liveIn : VarMap) (succs : List Nat) : VarSet :=
  succs.foldl (fun acc s => acc ∪ liveIn s) ∅

/-- Lines 48-54: the new `liveIn` set of a block. -/
def transfer (useB defB out : VarSet) : VarSet :=
  useB ∪ out.filter (fun v => v ∉ defB)

/-- Lines 35-57: the body of the loop over the blocks in one sweep, acting on
the analysis state and the flag `changed`. -/
def stepBlock (acc : LivenessAnalysis × Bool) (bb : BasicBlock) : LivenessAnalysis × Bool :=
  let la := acc.1
  let prevOut := la.liveOut bb.id
  let prevIn := la.liveIn bb.id
  let newOut := unionSuccIn la.liveIn bb.succs
  let changed1 := if prevOut ≠ newOut then true else acc.2
  let newIn := transfer (la.use_ bb.id) (la.def_ bb.id) newOut
  let changed2 := if newIn ≠ prevIn then true else changed1
  ({ la with liveOut := VarMap.assign la.liveOut bb.id newOut,
             liveIn := VarMap.assign la.liveIn bb.id newIn }, changed2)

/-- Lines 30-58: one execution of the body of `while (changed)`: the flag is
reset and the blocks are visited in reverse layout order. -/
def sweep (fn : Function) (la : LivenessAnalysis) : LivenessAnalysis × Bool :=
  fn.reverse.foldl stepBlock (la, false)

/-- Lines 24-59: the loop `while (changed)`, with a bound on the number of
sweeps it may perform.  The result is the state when the loop stops together
with the number of sweeps performed, or `none` when the bound is exhausted
before the loop stops. -/
def whileChanged (fn : Function) : Nat → LivenessAnalysis → Option (LivenessAnalysis × Nat)
  | 0, _ => none
  | fuel + 1, la =>
    let r := sweep fn la
    if r.2 then (whileChanged fn fuel r.1).map (fun p => (p.1, p.2 + 1))
    else some (r.1, 1)

/-- Lines 21-59 of `LivenessAnalysis::run` on a fresh analysis object. -/
def run (fn : Function) (fuel : Nat) : Option (LivenessAnalysis × Nat) :=
  whileChanged fn fuel (computeGenKillVariables fn LivenessAnalysis.fresh)

/-- The state after `n` sweeps, whether or not the loop would have stopped. -/
def sweeps (fn : Function) (la : LivenessAnalysis) : Nat → LivenessAnalysis
  | 0 => la
  | n + 1 => (sweep fn (sweeps fn la n)).1

/-- The state before the first sweep of `run`. -/
def start (fn : Function) : LivenessAnalysis :=
  computeGenKillVariables fn LivenessAnalysis.fresh

/-- Lines 21-59 of `LivenessAnalysis::run` on an analysis object in the state
`la0`: the code neither constructs nor clears the four maps, and the registered
pass object (line 124) is the one every function is analysed with.  On a fresh
object this is `run`. -/
def runOn (fn : Function) (la0 : LivenessAnalysis) (fuel : Nat) :
    Option (LivenessAnalysis × Nat) :=
  whileChanged fn fuel (computeGenKillVariables fn la0)

/-! ### Notions used to state the properties -/

/-- The value `v` is a non-constant operand of a non-terminator instruction of `bb`. -/
def UsedIn (bb : BasicBlock) (v : Value) : Prop :=
  ∃ inst ∈ bb.insts, inst.isTerminator = false ∧ v ∈ inst.operands ∧ v.isConstant = false

/-- The value `v` is the result of a non-terminator instruction of `bb` whose
type is not void. -/
def DefinedIn (bb : BasicBlock) (v : Value) : Prop :=
  ∃ inst ∈ bb.insts, inst.isTerminator = false ∧ inst.isVoid = false ∧ v = inst.value

/-- The values an instruction mentions: its result when it has one, and its operands. -/
def instValues (i : Instruction) : List Value :=
  (if i.isVoid then [] else [i.value]) ++ i.operands

/-- The variables of a function: the non-constant values among the results and
operands of all its instructions, terminators included. -/
def allVariables (fn : Function) : Finset Value :=
  ((fn.flatMap (fun bb => bb.insts.flatMap instValues)).filter (fun v => !v.isConstant)).toFinset

/-- The non-constant operands of the non-terminator instructions of a function. -/
def usedValues (fn : Function) : Finset Value :=
  ((fn.flatMap (fun bb =>
      (bb.insts.filter (fun i => !i.isTerminator)).flatMap (fun i => i.operands))).filter
    (fun v => !v.isConstant)).toFinset

/-- There is a successor edge from the block with identity `a` to `b`. -/
def Edge (fn : Function) (a b : Nat) : Prop :=
  ∃ bb ∈ fn, bb.id = a ∧ b ∈ bb.succs

/-- The list `B0, B1, ..., Bk` is a path along successor edges on which `v` is
in `use[Bk]` and in no `def[Bi]` with `i < k`. -/
def LivePath (fn : Function) (u d : VarMap) (v : Value) : List Nat → Prop
  | [] => False
  | [b] => v ∈ u b
  | b :: s :: rest => v ∉ d b ∧ Edge fn b s ∧ LivePath fn u d v (s :: rest)

/-! ### Notions used in the proofs -/

/-- The sweep as a right fold over the layout order: the last block is visited first. -/
def sweepFrom (fn : Function) (acc : LivenessAnalysis × Bool) : LivenessAnalysis × Bool :=
  fn.foldr (fun bb a => stepBlock a bb) acc

/-- Pointwise inclusion of the `liveIn` and `liveOut` maps, same `use` and `def`. -/
def StateLE (s t : LivenessAnalysis) : Prop :=
  s.use_ = t.use_ ∧ s.def_ = t.def_ ∧
    (∀ b, s.liveIn b ⊆ t.liveIn b) ∧ (∀ b, s.liveOut b ⊆ t.liveOut b)

/-- The loop invariant: the state is below its own sweep, and every set is
inside a fixed finite set `U`. -/
structure LoopInv (fn : Function) (U : VarSet) (la : LivenessAnalysis) : Prop where
  asc : StateLE la (sweep fn la).1
  useU : ∀ b, la.use_ b ⊆ U
  inU : ∀ b, la.liveIn b ⊆ U
  outU : ∀ b, la.liveOut b ⊆ U

/-- Every block's `liveIn` set is the transfer of its `liveOut` set. -/
def InOfOut (fn : Function) (la : LivenessAnalysis) : Prop :=
  ∀ bb ∈ fn, la.liveIn bb.id = transfer (la.use_ bb.id) (la.def_ bb.id) (la.liveOut bb.id)

/-- The total size of the `liveOut` sets of the blocks. -/
def outSize (fn : Function) (la : LivenessAnalysis) : Nat :=
  ∑ k in (fn.map BasicBlock.id).toFinset, (la.liveOut k).card

/-! ### The loop with another visiting order, and with another stopping test -/

/-- One sweep that visits the blocks in the order of the list `order`, with
the block step of the code. -/
def sweepInOrder (order : List BasicBlock) (la : LivenessAnalysis) : LivenessAnalysis × Bool :=
  order.foldl stepBlock (la, false)

/-- The loop `while (changed)` whose sweeps visit the blocks in the order of
the list `order`. -/
def whileChangedInOrder (order : List BasicBlock) :
    Nat → LivenessAnalysis → Option (LivenessAnalysis × Nat)
  | 0, _ => none
  | fuel + 1, la =>
    let r := sweepInOrder order la
    if r.2 then (whileChangedInOrder order fuel r.1).map (fun p => (p.1, p.2 + 1))
    else some (r.1, 1)

/-- The block step as section 4.2 of the spec words the stopping test: the
same updates as `stepBlock`, but the flag records only a change of `liveIn`. -/
def stepBlockIn (acc : LivenessAnalysis × Bool) (bb : BasicBlock) : LivenessAnalysis × Bool :=
  let la := acc.1
  let prevIn := la.liveIn bb.id
  let newOut := unionSuccIn la.liveIn bb.succs
  let newIn := transfer (la.use_ bb.id) (la.def_ bb.id) newOut
  let changed := if newIn ≠ prevIn then true else acc.2
  ({ la with liveOut := VarMap.assign la.liveOut bb.id newOut,
             liveIn := VarMap.assign la.liveIn bb.id newIn }, changed)

/-- One sweep in reverse layout order with the flag of `stepBlockIn`. -/
def sweepIn (fn : Function) (la : LivenessAnalysis) : LivenessAnalysis × Bool :=
  fn.reverse.foldl stepBlockIn (la, false)

/-- The loop "repeat until no block's `liveIn` changed in the sweep". -/
def whileInChanged (fn : Function) : Nat → LivenessAnalysis → Option (LivenessAnalysis × Nat)
  | 0, _ => none
  | fuel + 1, la =>
    let r := sweepIn fn la
    if r.2 then (whileInChanged fn fuel r.1).map (fun p => (p.1, p.2 + 1))
    else some (r.1, 1)

/-- Every successor of a block is a block that comes strictly later in the list. -/
def TopoOrdered : Function → Prop
  | [] => True
  | bb :: rest => (∀ s ∈ bb.succs, s ∈ rest.map BasicBlock.id) ∧ TopoOrdered rest

/-- Whether a list of blocks is `TopoOrdered` can be computed. -/
def decTopoOrdered : (fn : Function) → Decidable (TopoOrdered fn)
  | [] => isTrue trivial
  | bb :: rest =>
    @instDecidableAnd (∀ s ∈ bb.succs, s ∈ rest.map BasicBlock.id) (TopoOrdered rest)
      inferInstance (decTopoOrdered rest)

instance instDecidableTopoOrdered : DecidablePred TopoOrdered := decTopoOrdered

/-- The sweep with the flag of `stepBlockIn` as a right fold over the layout order. -/
def sweepInFrom (fn : Function) (acc : LivenessAnalysis × Bool) : LivenessAnalysis × Bool :=
  fn.foldr (fun bb a => stepBlockIn a bb) acc

/-! ### The maps with their entries

The definitions above read a map through `operator[]` only, so they do not
tell a key without an entry from a key whose entry is the empty set.  The
definitions below follow the same lines of the code and keep the entries. -/

/-- Modelled from the spec: the type of the members `use`, `def`, `liveIn` and
`liveOut` is declared in `LivenessAnalysis.h`, which is not among the sources.
The spec describes each as a mapping from basic blocks to `VarSet`; the code
indexes them with `operator[]` and relies on it to create the entry of a key
that has none (lines 39-42 fill `liveOut[&bb]`, which nothing inserted before).
Here `none` at a key says that the map holds no entry for it. -/
abbrev EntryMap := Nat → Option VarSet

/-- The set that `m[k]` denotes: the set of the entry, empty for a new entry. -/
def EntryMap.read (m : EntryMap) (k : Nat) : VarSet := (m k).getD ∅

/-- The effect on the map of evaluating `m[k]`: a key without an entry gets one
that holds the empty set. -/
def EntryMap.touch (m : EntryMap) (k : Nat) : EntryMap :=
  fun j => if j = k then some (m.read k) else m j

/-- The effect on the map of giving `m[k]` the value `s`. -/
def EntryMap.write (m : EntryMap) (k : Nat) (s : VarSet) : EntryMap :=
  fun j => if j = k then some s else m j

/-- The four maps of the analysis object, with their entries. -/
structure AnalysisEntries where
  useE : EntryMap
  defE : EntryMap
  liveInE : EntryMap
  liveOutE : EntryMap

/-- A freshly constructed analysis object: no map holds an entry. -/
def AnalysisEntries.fresh : AnalysisEntries :=
  { useE := fun _ => none, defE := fun _ => none, liveInE := fun _ => none,
    liveOutE := fun _ => none }

/-- What the maps read as: the state of the analysis in the sense of
`LivenessAnalysis`. -/
def AnalysisEntries.values (e : AnalysisEntries) : LivenessAnalysis :=
  { use_ := e.useE.read, def_ := e.defE.read, liveIn := e.liveInE.read,
    liveOut := e.liveOutE.read }

/-- What `run` reaches through its argument `fn` and through `this`: the
function and the maps of the analysis object. -/
structure ProgramState where
  fn : Function
  maps : AnalysisEntries

/-- Lines 80-83 with entries: `use[&bb].insert(op)` for the operands that are
not constants. -/
def addOperandsE (b : Nat) (u : EntryMap) (ops : List Value) : EntryMap :=
  ops.foldl (fun m op => if !op.isConstant then m.write b (insert op (m.read b)) else m) u

/-- Lines 76-89 with entries. -/
def genKillInstE (b : Nat) (e : AnalysisEntries) (inst : Instruction) : AnalysisEntries :=
  if inst.isTerminator then e
  else
    let e1 := { e with useE := addOperandsE b e.useE inst.operands }
    if !inst.isVoid then
      if !inst.value.isConstant then
        { e1 with defE := e1.defE.write b (insert inst.value (e1.defE.read b)) }
      else e1
    else e1

/-- Lines 74-104 with entries. -/
def genKillBlockE (e : AnalysisEntries) (bb : BasicBlock) : AnalysisEntries :=
  bb.insts.foldl (genKillInstE bb.id) e

/-- The member function `computeGenKillVariables`, with entries. -/
def computeGenKillVariablesE (fn : Function) (e : AnalysisEntries) : AnalysisEntries :=
  fn.foldl genKillBlockE e

/-- Lines 40-44 for one successor: `liveIn[nextBB]` is evaluated, and its
elements are inserted into the new `liveOut` set. -/
def succStepE (p : EntryMap × VarSet) (s : Nat) : EntryMap × VarSet :=
  (p.1.touch s, p.2 ∪ p.1.read s)

/-- Lines 35-57 with entries.  Line 35 and 36 evaluate `liveOut[&bb]` and
`liveIn[&bb]`, lines 40-44 evaluate `liveIn[nextBB]` for every successor, line
49 evaluates `use[&bb]`, and line 51 evaluates `def[&bb]` once for every
element of the new `liveOut` set. -/
def stepBlockE (acc : ProgramState × Bool) (bb : BasicBlock) : ProgramState × Bool :=
  let m := acc.1.maps
  let prevOut := m.liveOutE.read bb.id
  let liveOut1 := m.liveOutE.touch bb.id
  let prevIn := m.liveInE.read bb.id
  let liveIn1 := m.liveInE.touch bb.id
  let r := bb.succs.foldl succStepE (liveIn1, ∅)
  let newOut := r.2
  let changed1 := if prevOut ≠ newOut then true else acc.2
  let use1 := m.useE.touch bb.id
  let def1 := if newOut = ∅ then m.defE else m.defE.touch bb.id
  let newIn := transfer (m.useE.read bb.id) (m.defE.read bb.id) newOut
  let changed2 := if newIn ≠ prevIn then true else changed1
  ({ acc.1 with maps :=
      { useE := use1, defE := def1, liveInE := r.1.write bb.id newIn,
        liveOutE := liveOut1.write bb.id newOut } }, changed2)

/-- Lines 30-58 with entries: one sweep over the blocks of the function in
reverse layout order. -/
def sweepE (ps : ProgramState) : ProgramState × Bool :=
  ps.fn.reverse.foldl stepBlockE (ps, false)

/-- Lines 24-59 with entries. -/
def whileChangedE : Nat → ProgramState → Option (ProgramState × Nat)
  | 0, _ => none
  | fuel + 1, ps =>
    let r := sweepE ps
    if r.2 then (whileChangedE fuel r.1).map (fun p => (p.1, p.2 + 1))
    else some (r.1, 1)

/-- The program state before the first sweep of `run` on the function `fn` and
the analysis object `e0`. -/
def startE (fn : Function) (e0 : AnalysisEntries) : ProgramState :=
  { fn := fn, maps := computeGenKillVariablesE fn e0 }

/-- Lines 21-59 of `LivenessAnalysis::run` with entries, on the function `fn`
and the analysis object `e0`. -/
def runE (fn : Function) (e0 : AnalysisEntries) (fuel : Nat) : Option (ProgramState × Nat) :=
  whileChangedE fuel (startE fn e0)

/-- What a program state and the flag read as, for `stepBlock`. -/
def valuesOf (x : ProgramState × Bool) : LivenessAnalysis × Bool :=
  (x.1.maps.values, x.2)

/-- The map `m2` is `m` after evaluations of `m[k]` at keys `k` of `K`: at every
key it holds what `m` held, or a new entry for a key of `K`. -/
def Touched (K : List Nat) (m m2 : EntryMap) : Prop :=
  ∀ k, m2 k = m k ∨ (k ∈ K ∧ m k = none ∧ m2 k = some ∅)

/-! ### Test inputs -/

def vA : Value := Value.argument 0
def vB : Value := Value.argument 1
def vX : Value := Value.instruction 10
def vY : Value := Value.instruction 11

/-- Scenario 1: one block, no successors, `x = add a, b; ret void`. -/
def scenario1 : Function :=
  [{ id := 0,
     insts := [{ id := 10, isTerminator := false, isVoid := false, operands := [vA, vB] },
               { id := 20, isTerminator := true, isVoid := true, operands := [] }],
     succs := [] }]

/-- Scenario 3: one block that is its own successor, `y = add y, 1; br B`. -/
def scenario3 : Function :=
  [{ id := 0,
     insts := [{ id := 11, isTerminator := false, isVoid := false,
                 operands := [vY, Value.constant 1] },
               { id := 21, isTerminator := true, isVoid := true, operands := [] }],
     succs := [0] }]

/-- A cycle of length two with a self-loop on the second block:
`B0: x = add a, 1; br B1` and `B1: call void f(x, b); br a, B0, B1`. -/
def twoCycle : Function :=
  [{ id := 0,
     insts := [{ id := 10, isTerminator := false, isVoid := false,
                 operands := [vA, Value.constant 1] },
               { id := 20, isTerminator := true, isVoid := true, operands := [] }],
     succs := [1] },
   { id := 1,
     insts := [{ id := 12, isTerminator := false, isVoid := true,
                 operands := [Value.constant 7, vX, vB] },
               { id := 22, isTerminator := true, isVoid := true, operands := [vA] }],
     succs := [0, 1] }]

/-- A value read only by a terminator: `B0: x = add a, 1; br c, B1, B1` and
`B1: call void f(x); ret void`. -/
def condBranch : Function :=
  [{ id := 0,
     insts := [{ id := 10, isTerminator := false, isVoid := false,
                 operands := [vA, Value.constant 1] },
               { id := 20, isTerminator := true, isVoid := true,
                 operands := [Value.argument 2] }],
     succs := [1, 1] },
   { id := 1,
     insts := [{ id := 12, isTerminator := false, isVoid := true,
                 operands := [Value.constant 7, vX] },
               { id := 22, isTerminator := true, isVoid := true, operands := [] }],
     succs := [] }]

/-- A definition followed by a use in the same block:
`B0: x = add a, b; y = mul x, 2; store y, p; z = invoke g(x, d)`. -/
def defThenUseBlock : BasicBlock :=
  { id := 0,
    insts := [{ id := 10, isTerminator := false, isVoid := false, operands := [vA, vB] },
              { id := 11, isTerminator := false, isVoid := false,
                operands := [vX, Value.constant 2] },
              { id := 12, isTerminator := false, isVoid := true,
                operands := [vY, Value.constant 5] },
              { id := 13, isTerminator := true, isVoid := false,
                operands := [vX, Value.argument 3] }],
    succs := [] }

def defThenUse : Function := [defThenUseBlock]

/-- Scenario 2: `B1: x = add 1, 2; br B2` and `B2: call void g(x); ret void`. -/
def scenario2B1 : BasicBlock :=
  { id := 1,
    insts := [{ id := 10, isTerminator := false, isVoid := false,
                operands := [Value.constant 1, Value.constant 2] },
              { id := 20, isTerminator := true, isVoid := true, operands := [] }],
    succs := [2] }

def scenario2B2 : BasicBlock :=
  { id := 2,
    insts := [{ id := 12, isTerminator := false, isVoid := true,
                operands := [Value.constant 7, vX] },
              { id := 22, isTerminator := true, isVoid := true, operands := [] }],
    succs := [] }

def scenario2 : Function := [scenario2B1, scenario2B2]

/-- A block whose only instruction is its terminator, between two others:
`B0: call void g(a); br B1`, `B1: br B2, B0`, `B2: call void g(b); ret void`. -/
def passBlock : BasicBlock :=
  { id := 1,
    insts := [{ id := 21, isTerminator := true, isVoid := true, operands := [vA] }],
    succs := [2, 0] }

def passThrough : Function :=
  [{ id := 0,
     insts := [{ id := 12, isTerminator := false, isVoid := true,
                 operands := [Value.constant 7, vA] },
               { id := 20, isTerminator := true, isVoid := true, operands := [] }],
     succs := [1] },
   passBlock,
   { id := 2,
     insts := [{ id := 13, isTerminator := false, isVoid := true,
                 operands := [Value.constant 7, vB] },
               { id := 22, isTerminator := true, isVoid := true, operands := [] }],
     succs := [] }]

/-- A malformed function: the only block `B0: call void g(a); br B5` names a
successor `B5` that is not a block of the function. -/
def dangling : Function :=
  [{ id := 0,
     insts := [{ id := 12, isTerminator := false, isVoid := true,
                 operands := [Value.constant 7, vA] },
               { id := 20, isTerminator := true, isVoid := true, operands := [] }],
     succs := [5] }]

/-- Another function, whose only block `B5: call void g(c); ret void` is the
block that `dangling` names as a successor. -/
def otherFn : Function :=
  [{ id := 5,
     insts := [{ id := 15, isTerminator := false, isVoid := true,
                 operands := [Value.constant 7, Value.argument 7] },
               { id := 25, isTerminator := true, isVoid := true, operands := [] }],
     succs := [] }]

/-- The analysis object after `run` on `otherFn` (two sweeps). -/
def afterOther : LivenessAnalysis := sweeps otherFn (start otherFn) 2

/-! ### Basic facts about one block step -/

theorem mem_unionSuccIn (m : VarMap) (succs : List Nat) (v : Value) :
    v ∈ unionSuccIn m succs ↔ ∃ s ∈ succs, v ∈ m s := by
  unfold unionSuccIn
  suffices h : ∀ (init : VarSet),
      v ∈ succs.foldl (fun acc s => acc ∪ m s) init ↔ v ∈ init ∨ ∃ s ∈ succs, v ∈ m s by
    simpa using h ∅
  induction succs with
  | nil => intro init; simp
  | cons a l ih =>
    intro init
    rw [List.foldl_cons, ih]
    simp only [Finset.mem_union, List.mem_cons, exists_eq_or_imp]
    tauto

theorem mem_transfer (u d o : VarSet) (v : Value) :
    v ∈ transfer u d o ↔ v ∈ u ∨ (v ∈ o ∧ v ∉ d) := by
  simp [transfer]

theorem transfer_eq (u d o : VarSet) : transfer u d o = u ∪ (o \ d) := by
  ext v
  simp [mem_transfer]

@[simp] theorem stepBlock_use (acc : LivenessAnalysis × Bool) (bb : BasicBlock) :
    (stepBlock acc bb).1.use_ = acc.1.use_ := rfl

@[simp] theorem stepBlock_def (acc : LivenessAnalysis × Bool) (bb : BasicBlock) :
    (stepBlock acc bb).1.def_ = acc.1.def_ := rfl

theorem stepBlock_liveOut (acc : LivenessAnalysis × Bool) (bb : BasicBlock) (k : Nat) :
    (stepBlock acc bb).1.liveOut k =
      if k = bb.id then unionSuccIn acc.1.liveIn bb.succs else acc.1.liveOut k := rfl

theorem stepBlock_liveIn (acc : LivenessAnalysis × Bool) (bb : BasicBlock) (k : Nat) :
    (stepBlock acc bb).1.liveIn k =
      if k = bb.id then
        transfer (acc.1.use_ bb.id) (acc.1.def_ bb.id) (unionSuccIn acc.1.liveIn bb.succs)
      else acc.1.liveIn k := rfl

theorem stepBlock_changed (acc : LivenessAnalysis × Bool) (bb : BasicBlock) :
    (stepBlock acc bb).2 = true ↔
      (acc.2 = true ∨ acc.1.liveOut bb.id ≠ unionSuccIn acc.1.liveIn bb.succs ∨
        transfer (acc.1.use_ bb.id) (acc.1.def_ bb.id) (unionSuccIn acc.1.liveIn bb.succs)
          ≠ acc.1.liveIn bb.id) := by
  simp only [stepBlock]
  by_cases h1 : acc.1.liveOut bb.id = unionSuccIn acc.1.liveIn bb.succs <;>
  by_cases h2 : transfer (acc.1.use_ bb.id) (acc.1.def_ bb.id)
      (unionSuccIn acc.1.liveIn bb.succs) = acc.1.liveIn bb.id <;>
  simp [h1, h2]

theorem sweep_eq_sweepFrom (fn : Function) (la : LivenessAnalysis) :
    sweep fn la = sweepFrom fn (la, false) := by
  simp [sweep, sweepFrom, List.foldl_reverse]

@[simp] theorem sweepFrom_nil (acc : LivenessAnalysis × Bool) : sweepFrom [] acc = acc := rfl

@[simp] theorem sweepFrom_cons (bb : BasicBlock) (fn : Function) (acc : LivenessAnalysis × Bool) :
    sweepFrom (bb :: fn) acc = stepBlock (sweepFrom fn acc) bb := rfl

@[simp] theorem sweepFrom_use (fn : Function) (acc : LivenessAnalysis × Bool) :
    (sweepFrom fn acc).1.use_ = acc.1.use_ := by
  induction fn with
  | nil => rfl
  | cons bb fn ih => simp [ih]

@[simp] theorem sweepFrom_def (fn : Function) (acc : LivenessAnalysis × Bool) :
    (sweepFrom fn acc).1.def_ = acc.1.def_ := by
  induction fn with
  | nil => rfl
  | cons bb fn ih => simp [ih]

@[simp] theorem sweep_use (fn : Function) (la : LivenessAnalysis) :
    (sweep fn la).1.use_ = la.use_ := by
  simp [sweep_eq_sweepFrom]

@[simp] theorem sweep_def (fn : Function) (la : LivenessAnalysis) :
    (sweep fn la).1.def_ = la.def_ := by
  simp [sweep_eq_sweepFrom]

@[simp] theorem sweeps_use (fn : Function) (la : LivenessAnalysis) (n : Nat) :
    (sweeps fn la n).use_ = la.use_ := by
  induction n with
  | zero => rfl
  | succ n ih => simp [sweeps, ih]

@[simp] theorem sweeps_def (fn : Function) (la : LivenessAnalysis) (n : Nat) :
    (sweeps fn la n).def_ = la.def_ := by
  induction n with
  | zero => rfl
  | succ n ih => simp [sweeps, ih]

/-- A key that belongs to no block of the list is not written by the sweep. -/
theorem sweepFrom_frame (fn : Function) (acc : LivenessAnalysis × Bool) (k : Nat)
    (hk : k ∉ fn.map BasicBlock.id) :
    (sweepFrom fn acc).1.liveIn k = acc.1.liveIn k ∧
      (sweepFrom fn acc).1.liveOut k = acc.1.liveOut k := by
  induction fn with
  | nil => simp
  | cons bb fn ih =>
    simp only [List.map_cons, List.mem_cons, not_or] at hk
    have h := ih hk.2
    simp only [sweepFrom_cons, stepBlock_liveIn, stepBlock_liveOut, if_neg hk.1]
    exact h

/-! ### The pointwise order on analysis states -/

theorem stateLE_refl (s : LivenessAnalysis) : StateLE s s :=
  ⟨rfl, rfl, fun _ => Finset.Subset.refl _, fun _ => Finset.Subset.refl _⟩

theorem unionSuccIn_mono {m m2 : VarMap} (h : ∀ b, m b ⊆ m2 b) (succs : List Nat) :
    unionSuccIn m succs ⊆ unionSuccIn m2 succs := by
  intro v hv
  rw [mem_unionSuccIn] at hv ⊢
  obtain ⟨s, hs, hvs⟩ := hv
  exact ⟨s, hs, h s hvs⟩

theorem transfer_mono (u d : VarSet) {o o2 : VarSet} (h : o ⊆ o2) :
    transfer u d o ⊆ transfer u d o2 := by
  intro v hv
  rw [mem_transfer] at hv ⊢
  rcases hv with hv | ⟨hv, hd⟩
  · exact Or.inl hv
  · exact Or.inr ⟨h hv, hd⟩

theorem stepBlock_mono {s t : LivenessAnalysis × Bool} (h : StateLE s.1 t.1) (bb : BasicBlock) :
    StateLE (stepBlock s bb).1 (stepBlock t bb).1 := by
  obtain ⟨hu, hd, hi, ho⟩ := h
  refine ⟨by simpa using hu, by simpa using hd, ?_, ?_⟩
  · intro b
    rw [stepBlock_liveIn, stepBlock_liveIn]
    by_cases hb : b = bb.id
    · rw [if_pos hb, if_pos hb, hu, hd]
      exact transfer_mono _ _ (unionSuccIn_mono hi _)
    · rw [if_neg hb, if_neg hb]
      exact hi b
  · intro b
    rw [stepBlock_liveOut, stepBlock_liveOut]
    by_cases hb : b = bb.id
    · rw [if_pos hb, if_pos hb]
      exact unionSuccIn_mono hi _
    · rw [if_neg hb, if_neg hb]
      exact ho b

theorem sweepFrom_mono (fn : Function) {s t : LivenessAnalysis × Bool} (h : StateLE s.1 t.1) :
    StateLE (sweepFrom fn s).1 (sweepFrom fn t).1 := by
  induction fn with
  | nil => exact h
  | cons bb fn ih => exact stepBlock_mono ih bb

theorem sweep_mono (fn : Function) {s t : LivenessAnalysis} (h : StateLE s t) :
    StateLE (sweep fn s).1 (sweep fn t).1 := by
  rw [sweep_eq_sweepFrom, sweep_eq_sweepFrom]
  exact sweepFrom_mono fn h

/-! ### The gen/kill pass leaves `liveIn` and `liveOut` alone -/

theorem genKillInst_live (b : Nat) (la : LivenessAnalysis) (inst : Instruction) :
    (genKillInst b la inst).liveIn = la.liveIn ∧ (genKillInst b la inst).liveOut = la.liveOut := by
  unfold genKillInst
  split_ifs <;> exact ⟨rfl, rfl⟩

theorem genKillBlock_live (la : LivenessAnalysis) (bb : BasicBlock) :
    (genKillBlock la bb).liveIn = la.liveIn ∧ (genKillBlock la bb).liveOut = la.liveOut := by
  unfold genKillBlock
  generalize bb.insts = l
  induction l generalizing la with
  | nil => exact ⟨rfl, rfl⟩
  | cons i l ih =>
    rw [List.foldl_cons]
    have h1 := genKillInst_live bb.id la i
    have h2 := ih (genKillInst bb.id la i)
    exact ⟨h2.1.trans h1.1, h2.2.trans h1.2⟩

theorem computeGenKillVariables_live (fn : Function) (la : LivenessAnalysis) :
    (computeGenKillVariables fn la).liveIn = la.liveIn ∧
      (computeGenKillVariables fn la).liveOut = la.liveOut := by
  unfold computeGenKillVariables
  induction fn generalizing la with
  | nil => exact ⟨rfl, rfl⟩
  | cons bb fn ih =>
    rw [List.foldl_cons]
    have h1 := genKillBlock_live la bb
    have h2 := ih (genKillBlock la bb)
    exact ⟨h2.1.trans h1.1, h2.2.trans h1.2⟩

theorem start_liveIn (fn : Function) (b : Nat) : (start fn).liveIn b = ∅ := by
  have h := (computeGenKillVariables_live fn LivenessAnalysis.fresh).1
  unfold start
  rw [h]
  rfl

theorem start_liveOut (fn : Function) (b : Nat) : (start fn).liveOut b = ∅ := by
  have h := (computeGenKillVariables_live fn LivenessAnalysis.fresh).2
  unfold start
  rw [h]
  rfl

/-- Started from empty maps, the sequence of sweeps is ascending. -/
theorem sweeps_ascending (fn : Function) (n : Nat) :
    StateLE (sweeps fn (start fn) n) (sweeps fn (start fn) (n + 1)) := by
  induction n with
  | zero =>
    refine ⟨by simp [sweeps], by simp [sweeps], ?_, ?_⟩
    · intro b; simp [sweeps, start_liveIn]
    · intro b; simp [sweeps, start_liveOut]
  | succ n ih => exact sweep_mono fn ih

/-! ### A sweep that reports no change -/

theorem stepBlock_eq_self (acc : LivenessAnalysis × Bool) (bb : BasicBlock)
    (ho : acc.1.liveOut bb.id = unionSuccIn acc.1.liveIn bb.succs)
    (hi : transfer (acc.1.use_ bb.id) (acc.1.def_ bb.id) (unionSuccIn acc.1.liveIn bb.succs)
      = acc.1.liveIn bb.id) :
    (stepBlock acc bb).1 = acc.1 := by
  obtain ⟨⟨u, d, li, lo⟩, c⟩ := acc
  simp only [stepBlock, LivenessAnalysis.mk.injEq, true_and]
  simp only at ho hi
  constructor
  · funext k
    simp only [VarMap.assign]
    split_ifs with hk
    · rw [hk]; exact hi
    · rfl
  · funext k
    simp only [VarMap.assign]
    split_ifs with hk
    · rw [hk]; exact ho.symm
    · rfl

/-- When a sweep ends with the flag down, the flag was down at the start, no
step wrote a new value, and every block satisfies both equations. -/
theorem sweepFrom_unchanged (fn : Function) (acc : LivenessAnalysis × Bool)
    (h : (sweepFrom fn acc).2 = false) :
    acc.2 = false ∧ (sweepFrom fn acc).1 = acc.1 ∧
      ∀ bb ∈ fn, acc.1.liveOut bb.id = unionSuccIn acc.1.liveIn bb.succs ∧
        acc.1.liveIn bb.id =
          transfer (acc.1.use_ bb.id) (acc.1.def_ bb.id) (acc.1.liveOut bb.id) := by
  induction fn with
  | nil => exact ⟨h, rfl, by simp⟩
  | cons bb fn ih =>
    rw [sweepFrom_cons] at h
    have hc := stepBlock_changed (sweepFrom fn acc) bb
    rw [h] at hc
    simp only [Bool.false_eq_true, false_iff, not_or, ne_eq, not_not, Bool.not_eq_true] at hc
    obtain ⟨h1, h2, h3⟩ := hc
    obtain ⟨ha, hs, he⟩ := ih h1
    have hstep := stepBlock_eq_self _ bb h2 h3
    rw [hs] at h2 h3
    refine ⟨ha, ?_, ?_⟩
    · rw [sweepFrom_cons, hstep, hs]
    · intro b hb
      rcases List.mem_cons.1 hb with rfl | hb
      · refine ⟨h2, ?_⟩
        rw [← h2] at h3
        exact h3.symm
      · exact he b hb

theorem sweep_unchanged (fn : Function) (la : LivenessAnalysis) (h : (sweep fn la).2 = false) :
    (sweep fn la).1 = la ∧
      ∀ bb ∈ fn, la.liveOut bb.id = unionSuccIn la.liveIn bb.succs ∧
        la.liveIn bb.id = transfer (la.use_ bb.id) (la.def_ bb.id) (la.liveOut bb.id) := by
  rw [sweep_eq_sweepFrom] at h ⊢
  exact (sweepFrom_unchanged fn (la, false) h).2

/-! ### A sweep over blocks with distinct identities -/

/-- With distinct block identities, a raised flag means that some block's
`liveIn` or `liveOut` set differs from what it was before the sweep. -/
theorem sweepFrom_changed (fn : Function) (hnd : (fn.map BasicBlock.id).Nodup)
    (acc : LivenessAnalysis × Bool) (h : (sweepFrom fn acc).2 = true) :
    acc.2 = true ∨ ∃ k ∈ fn.map BasicBlock.id,
      (sweepFrom fn acc).1.liveIn k ≠ acc.1.liveIn k ∨
        (sweepFrom fn acc).1.liveOut k ≠ acc.1.liveOut k := by
  induction fn with
  | nil => exact Or.inl h
  | cons bb fn ih =>
    rw [List.map_cons, List.nodup_cons] at hnd
    obtain ⟨hnot, hnd⟩ := hnd
    rw [sweepFrom_cons] at h ⊢
    have hfr := sweepFrom_frame fn acc bb.id hnot
    rcases (stepBlock_changed (sweepFrom fn acc) bb).1 h with h1 | h2 | h3
    · rcases ih hnd h1 with ha | ⟨k, hk, hdiff⟩
      · exact Or.inl ha
      · right
        refine ⟨k, List.mem_cons_of_mem _ hk, ?_⟩
        have hne : k ≠ bb.id := fun e => hnot (e ▸ hk)
        rw [stepBlock_liveIn, stepBlock_liveOut, if_neg hne, if_neg hne]
        exact hdiff
    · right
      refine ⟨bb.id, List.mem_cons_self _ _, Or.inr ?_⟩
      rw [stepBlock_liveOut, if_pos rfl, ← hfr.2]
      exact fun e => h2 e.symm
    · right
      refine ⟨bb.id, List.mem_cons_self _ _, Or.inl ?_⟩
      rw [stepBlock_liveIn, if_pos rfl, ← hfr.1]
      exact h3

/-- With distinct block identities, after a sweep every block has the `liveOut`
set computed at its own step, and its `liveIn` set is the transfer of it. -/
theorem sweepFrom_after (fn : Function) (hnd : (fn.map BasicBlock.id).Nodup)
    (acc : LivenessAnalysis × Bool) :
    ∀ bb ∈ fn,
      (∃ m : VarMap, (sweepFrom fn acc).1.liveOut bb.id = unionSuccIn m bb.succs) ∧
      (sweepFrom fn acc).1.liveIn bb.id =
        transfer (acc.1.use_ bb.id) (acc.1.def_ bb.id) ((sweepFrom fn acc).1.liveOut bb.id) := by
  induction fn with
  | nil => simp
  | cons b fn ih =>
    rw [List.map_cons, List.nodup_cons] at hnd
    obtain ⟨hnot, hnd⟩ := hnd
    intro bb hbb
    rw [sweepFrom_cons, stepBlock_liveIn, stepBlock_liveOut]
    rcases List.mem_cons.1 hbb with rfl | hbb
    · rw [if_pos rfl, if_pos rfl]
      exact ⟨⟨_, rfl⟩, by simp⟩
    · have hne : bb.id ≠ b.id := fun e => hnot (e ▸ List.mem_map_of_mem _ hbb)
      rw [if_neg hne, if_neg hne]
      exact ih hnd bb hbb

/-! ### The loop -/

theorem sweeps_succ_left (fn : Function) (la : LivenessAnalysis) (n : Nat) :
    sweeps fn la (n + 1) = sweeps fn (sweep fn la).1 n := by
  induction n with
  | zero => rfl
  | succ n ih =>
    show (sweep fn (sweeps fn la (n + 1))).1 = (sweep fn (sweeps fn (sweep fn la).1 n)).1
    rw [ih]

/-- What the loop returns: the state after the sweeps it performed, and a
further sweep of that state changes nothing. -/
theorem whileChanged_some (fn : Function) (fuel : Nat) (la st : LivenessAnalysis) (n : Nat)
    (h : whileChanged fn fuel la = some (st, n)) :
    1 ≤ n ∧ n ≤ fuel ∧ st = sweeps fn la n ∧ (sweep fn st).2 = false ∧ (sweep fn st).1 = st := by
  induction fuel generalizing la n with
  | zero => simp [whileChanged] at h
  | succ fuel ih =>
    simp only [whileChanged] at h
    by_cases hc : (sweep fn la).2 = true
    · rw [if_pos hc] at h
      cases hr : whileChanged fn fuel (sweep fn la).1 with
      | none => rw [hr] at h; simp at h
      | some p =>
        obtain ⟨st2, n2⟩ := p
        rw [hr] at h
        simp only [Option.map_some', Option.some.injEq, Prod.mk.injEq] at h
        obtain ⟨h1, h2⟩ := h
        subst h1 h2
        obtain ⟨a, b, c, d, e⟩ := ih _ _ hr
        refine ⟨by omega, by omega, ?_, d, e⟩
        rw [sweeps_succ_left]
        exact c
    · rw [if_neg hc] at h
      simp only [Option.some.injEq, Prod.mk.injEq] at h
      obtain ⟨h1, h2⟩ := h
      subst h1 h2
      have hf : (sweep fn la).2 = false := by simpa using hc
      have hs := (sweep_unchanged fn la hf).1
      refine ⟨le_refl _, by omega, rfl, ?_, ?_⟩
      · rw [hs]; exact hf
      · rw [hs, hs]

/-- The sweeps the loop performs: every sweep but the last raises the flag,
the last one leaves it down. -/
theorem whileChanged_last (fn : Function) (fuel : Nat) (la st : LivenessAnalysis) (n : Nat)
    (h : whileChanged fn fuel la = some (st, n)) :
    ∃ m, n = m + 1 ∧ (sweep fn (sweeps fn la m)).2 = false ∧
      ∀ j < m, (sweep fn (sweeps fn la j)).2 = true := by
  induction fuel generalizing la n with
  | zero => simp [whileChanged] at h
  | succ fuel ih =>
    simp only [whileChanged] at h
    by_cases hc : (sweep fn la).2 = true
    · rw [if_pos hc] at h
      cases hr : whileChanged fn fuel (sweep fn la).1 with
      | none => rw [hr] at h; simp at h
      | some p =>
        obtain ⟨st2, n2⟩ := p
        rw [hr] at h
        simp only [Option.map_some', Option.some.injEq, Prod.mk.injEq] at h
        obtain ⟨h1, h2⟩ := h
        subst h1 h2
        obtain ⟨m, hm, hl, hall⟩ := ih _ _ hr
        refine ⟨m + 1, by omega, ?_, ?_⟩
        · rw [sweeps_succ_left]; exact hl
        · intro j hj
          cases j with
          | zero => exact hc
          | succ j =>
            rw [sweeps_succ_left]
            exact hall j (by omega)
    · rw [if_neg hc] at h
      simp only [Option.some.injEq, Prod.mk.injEq] at h
      obtain ⟨_, h2⟩ := h
      refine ⟨0, h2.symm, by simpa [sweeps] using hc, ?_⟩
      intro j hj
      omega

/-- More fuel does not change what the loop returns. -/
theorem whileChanged_fuel_mono (fn : Function) (fuel : Nat) (la : LivenessAnalysis)
    (r : LivenessAnalysis × Nat) (h : whileChanged fn fuel la = some r) (extra : Nat) :
    whileChanged fn (fuel + extra) la = some r := by
  induction fuel generalizing la r with
  | zero => simp [whileChanged] at h
  | succ fuel ih =>
    rw [Nat.add_right_comm]
    simp only [whileChanged] at h ⊢
    by_cases hc : (sweep fn la).2 = true
    · rw [if_pos hc] at h ⊢
      cases hr : whileChanged fn fuel (sweep fn la).1 with
      | none => rw [hr] at h; simp at h
      | some p =>
        rw [hr] at h
        rw [ih _ _ hr]
        exact h
    · rw [if_neg hc] at h ⊢
      exact h

/-- The result of the loop does not depend on the fuel. -/
theorem whileChanged_unique (fn : Function) (f1 f2 : Nat) (la : LivenessAnalysis)
    (r1 r2 : LivenessAnalysis × Nat) (h1 : whileChanged fn f1 la = some r1)
    (h2 : whileChanged fn f2 la = some r2) : r1 = r2 := by
  have a := whileChanged_fuel_mono fn f1 la r1 h1 f2
  have b := whileChanged_fuel_mono fn f2 la r2 h2 f1
  rw [Nat.add_comm] at b
  rw [a] at b
  exact Option.some.inj b

/-! ### The gen/kill pass -/

theorem mem_addOperands (b : Nat) (u : VarMap) (ops : List Value) (k : Nat) (v : Value) :
    v ∈ addOperands b u ops k ↔
      v ∈ u k ∨ (k = b ∧ v ∈ ops ∧ v.isConstant = false) := by
  unfold addOperands
  induction ops generalizing u with
  | nil => simp
  | cons op ops ih =>
    rw [List.foldl_cons, ih]
    cases hc : op.isConstant
    · simp only [Bool.not_false, if_true, VarMap.insertAt, List.mem_cons]
      by_cases hk : k = b
      · simp only [hk, if_true, Finset.mem_insert, true_and]
        constructor
        · rintro ((rfl | h) | ⟨h1, h2⟩)
          · exact Or.inr ⟨Or.inl rfl, hc⟩
          · exact Or.inl h
          · exact Or.inr ⟨Or.inr h1, h2⟩
        · rintro (h | ⟨rfl | h1, h2⟩)
          · exact Or.inl (Or.inr h)
          · exact Or.inl (Or.inl rfl)
          · exact Or.inr ⟨h1, h2⟩
      · simp [hk]
    · simp only [Bool.not_true, Bool.false_eq_true, if_false, List.mem_cons]
      constructor
      · rintro (h | ⟨h1, h2, h3⟩)
        · exact Or.inl h
        · exact Or.inr ⟨h1, Or.inr h2, h3⟩
      · rintro (h | ⟨h1, rfl | h2, h3⟩)
        · exact Or.inl h
        · rw [hc] at h3; cases h3
        · exact Or.inr ⟨h1, h2, h3⟩

theorem mem_genKillInst_use (b : Nat) (la : LivenessAnalysis) (inst : Instruction)
    (k : Nat) (v : Value) :
    v ∈ (genKillInst b la inst).use_ k ↔
      v ∈ la.use_ k ∨
        (k = b ∧ inst.isTerminator = false ∧ v ∈ inst.operands ∧ v.isConstant = false) := by
  unfold genKillInst
  cases ht : inst.isTerminator
  · have h := mem_addOperands b la.use_ inst.operands k v
    simp only [Bool.false_eq_true, if_false, true_and]
    split_ifs <;> exact h
  · simp

theorem mem_genKillInst_def (b : Nat) (la : LivenessAnalysis) (inst : Instruction)
    (k : Nat) (v : Value) :
    v ∈ (genKillInst b la inst).def_ k ↔
      v ∈ la.def_ k ∨
        (k = b ∧ inst.isTerminator = false ∧ inst.isVoid = false ∧ v = inst.value) := by
  unfold genKillInst
  cases ht : inst.isTerminator
  · cases hv : inst.isVoid
    · have hnc : inst.value.isConstant = false := rfl
      simp only [Bool.false_eq_true, if_false, Bool.not_false, if_true, hnc, VarMap.insertAt,
        true_and]
      by_cases hk : k = b
      · simp only [hk, if_true, Finset.mem_insert, true_and]
        tauto
      · simp [hk]
    · simp
  · simp

theorem mem_genKillBlock_use (la : LivenessAnalysis) (bb : BasicBlock) (k : Nat) (v : Value) :
    v ∈ (genKillBlock la bb).use_ k ↔ v ∈ la.use_ k ∨ (k = bb.id ∧ UsedIn bb v) := by
  unfold genKillBlock UsedIn
  generalize bb.insts = l
  induction l generalizing la with
  | nil => simp
  | cons i l ih =>
    rw [List.foldl_cons, ih, mem_genKillInst_use]
    simp only [List.mem_cons, exists_eq_or_imp]
    tauto

theorem mem_genKillBlock_def (la : LivenessAnalysis) (bb : BasicBlock) (k : Nat) (v : Value) :
    v ∈ (genKillBlock la bb).def_ k ↔ v ∈ la.def_ k ∨ (k = bb.id ∧ DefinedIn bb v) := by
  unfold genKillBlock DefinedIn
  generalize bb.insts = l
  induction l generalizing la with
  | nil => simp
  | cons i l ih =>
    rw [List.foldl_cons, ih, mem_genKillInst_def]
    simp only [List.mem_cons, exists_eq_or_imp]
    tauto

theorem mem_computeGenKillVariables_use (fn : Function) (la : LivenessAnalysis)
    (k : Nat) (v : Value) :
    v ∈ (computeGenKillVariables fn la).use_ k ↔
      v ∈ la.use_ k ∨ ∃ bb ∈ fn, k = bb.id ∧ UsedIn bb v := by
  unfold computeGenKillVariables
  induction fn generalizing la with
  | nil => simp
  | cons b fn ih =>
    rw [List.foldl_cons, ih, mem_genKillBlock_use]
    simp only [List.mem_cons, exists_eq_or_imp]
    tauto

theorem mem_computeGenKillVariables_def (fn : Function) (la : LivenessAnalysis)
    (k : Nat) (v : Value) :
    v ∈ (computeGenKillVariables fn la).def_ k ↔
      v ∈ la.def_ k ∨ ∃ bb ∈ fn, k = bb.id ∧ DefinedIn bb v := by
  unfold computeGenKillVariables
  induction fn generalizing la with
  | nil => simp
  | cons b fn ih =>
    rw [List.foldl_cons, ih, mem_genKillBlock_def]
    simp only [List.mem_cons, exists_eq_or_imp]
    tauto

theorem mem_start_use (fn : Function) (k : Nat) (v : Value) :
    v ∈ (start fn).use_ k ↔ ∃ bb ∈ fn, k = bb.id ∧ UsedIn bb v := by
  unfold start
  rw [mem_computeGenKillVariables_use]
  simp [LivenessAnalysis.fresh]

theorem mem_start_def (fn : Function) (k : Nat) (v : Value) :
    v ∈ (start fn).def_ k ↔ ∃ bb ∈ fn, k = bb.id ∧ DefinedIn bb v := by
  unfold start
  rw [mem_computeGenKillVariables_def]
  simp [LivenessAnalysis.fresh]

/-- Two blocks of a function with distinct identities that have the same
identity are the same block. -/
theorem block_eq_of_id_eq (fn : Function) (hnd : (fn.map BasicBlock.id).Nodup)
    {a b : BasicBlock} (ha : a ∈ fn) (hb : b ∈ fn) (h : a.id = b.id) : a = b :=
  List.inj_on_of_nodup_map hnd ha hb h

theorem usedIn_mem_allVariables (fn : Function) (bb : BasicBlock) (hbb : bb ∈ fn) (v : Value)
    (h : UsedIn bb v) : v ∈ allVariables fn := by
  obtain ⟨inst, hi, _, hv, hc⟩ := h
  simp only [allVariables, List.mem_toFinset, List.mem_filter, List.mem_flatMap, instValues,
    List.mem_append]
  exact ⟨⟨bb, hbb, inst, hi, Or.inr hv⟩, by simp [hc]⟩

theorem start_use_subset_allVariables (fn : Function) (k : Nat) :
    (start fn).use_ k ⊆ allVariables fn := by
  intro v hv
  obtain ⟨bb, hbb, _, hu⟩ := (mem_start_use fn k v).1 hv
  exact usedIn_mem_allVariables fn bb hbb v hu

/-! ### Termination of the loop -/

theorem sweepFrom_bounded (U : VarSet) (fn : Function) (acc : LivenessAnalysis × Bool)
    (hu : ∀ b, acc.1.use_ b ⊆ U) (hi : ∀ b, acc.1.liveIn b ⊆ U)
    (ho : ∀ b, acc.1.liveOut b ⊆ U) :
    (∀ b, (sweepFrom fn acc).1.liveIn b ⊆ U) ∧ (∀ b, (sweepFrom fn acc).1.liveOut b ⊆ U) := by
  induction fn with
  | nil => exact ⟨hi, ho⟩
  | cons bb fn ih =>
    obtain ⟨ihi, iho⟩ := ih
    have hout : unionSuccIn (sweepFrom fn acc).1.liveIn bb.succs ⊆ U := by
      intro v hv
      obtain ⟨s, _, hs⟩ := (mem_unionSuccIn _ _ _).1 hv
      exact ihi s hs
    constructor
    · intro b
      rw [sweepFrom_cons, stepBlock_liveIn]
      split_ifs
      · intro v hv
        rcases (mem_transfer _ _ _ _).1 hv with h | ⟨h, _⟩
        · rw [sweepFrom_use] at h
          exact hu _ h
        · exact hout h
      · exact ihi b
    · intro b
      rw [sweepFrom_cons, stepBlock_liveOut]
      split_ifs
      · exact hout
      · exact iho b

theorem loopInv_sweep {fn : Function} {U : VarSet} {la : LivenessAnalysis}
    (h : LoopInv fn U la) : LoopInv fn U (sweep fn la).1 := by
  have hb := sweepFrom_bounded U fn (la, false) h.useU h.inU h.outU
  rw [← sweep_eq_sweepFrom] at hb
  exact ⟨sweep_mono fn h.asc, by simpa using h.useU, hb.1, hb.2⟩

theorem loopInv_start (fn : Function) : LoopInv fn (allVariables fn) (start fn) := by
  refine ⟨?_, start_use_subset_allVariables fn, ?_, ?_⟩
  · exact sweeps_ascending fn 0
  · intro b; rw [start_liveIn]; exact Finset.empty_subset _
  · intro b; rw [start_liveOut]; exact Finset.empty_subset _

theorem inOfOut_sweep (fn : Function) (hnd : (fn.map BasicBlock.id).Nodup)
    (la : LivenessAnalysis) : InOfOut fn (sweep fn la).1 := by
  intro bb hbb
  have h := (sweepFrom_after fn hnd (la, false) bb hbb).2
  rw [← sweep_eq_sweepFrom] at h
  simpa using h

theorem outSize_le (fn : Function) (U : VarSet) (la : LivenessAnalysis)
    (ho : ∀ b, la.liveOut b ⊆ U) : outSize fn la ≤ fn.length * U.card := by
  unfold outSize
  calc ∑ k in (fn.map BasicBlock.id).toFinset, (la.liveOut k).card
      ≤ (fn.map BasicBlock.id).toFinset.card • U.card :=
        Finset.sum_le_card_nsmul _ _ _ (fun k _ => Finset.card_le_card (ho k))
    _ ≤ fn.length * U.card := by
        rw [smul_eq_mul]
        apply Nat.mul_le_mul_right
        have := List.toFinset_card_le (fn.map BasicBlock.id)
        simpa using this

/-- A sweep that raises the flag strictly enlarges some `liveOut` set. -/
theorem outSize_lt_of_changed (fn : Function) (hnd : (fn.map BasicBlock.id).Nodup)
    (U : VarSet) (la : LivenessAnalysis) (hinv : LoopInv fn U la) (hio : InOfOut fn la)
    (hc : (sweep fn la).2 = true) : outSize fn la < outSize fn (sweep fn la).1 := by
  have hch := sweepFrom_changed fn hnd (la, false) (by rw [← sweep_eq_sweepFrom]; exact hc)
  rw [← sweep_eq_sweepFrom] at hch
  simp only [Bool.false_eq_true, false_or] at hch
  obtain ⟨k, hk, hdiff⟩ := hch
  have hout : (sweep fn la).1.liveOut k ≠ la.liveOut k := by
    rcases hdiff with hin | hout
    · intro e
      apply hin
      obtain ⟨bb, hbb, rfl⟩ := List.mem_map.1 hk
      rw [inOfOut_sweep fn hnd la bb hbb, hio bb hbb, e]
      simp
    · exact hout
  unfold outSize
  apply Finset.sum_lt_sum
  · intro i _
    exact Finset.card_le_card (hinv.asc.2.2.2 i)
  · refine ⟨k, List.mem_toFinset.2 hk, ?_⟩
    apply Finset.card_lt_card
    exact Finset.ssubset_iff_subset_ne.2 ⟨hinv.asc.2.2.2 k, fun e => hout e.symm⟩

/-- From a state satisfying the invariants, the loop stops within `d + 1`
sweeps when `liveOut` can grow at most `d` more times. -/
theorem whileChanged_terminates_from (fn : Function) (hnd : (fn.map BasicBlock.id).Nodup)
    (U : VarSet) (d : Nat) (la : LivenessAnalysis) (hinv : LoopInv fn U la)
    (hio : InOfOut fn la) (hd : fn.length * U.card ≤ outSize fn la + d) :
    ∃ st n, whileChanged fn (d + 1) la = some (st, n) ∧ n ≤ d + 1 := by
  induction d generalizing la with
  | zero =>
    by_cases hc : (sweep fn la).2 = true
    · have h1 := outSize_lt_of_changed fn hnd U la hinv hio hc
      have h2 := outSize_le fn U (sweep fn la).1 (loopInv_sweep hinv).outU
      omega
    · exact ⟨(sweep fn la).1, 1, by simp [whileChanged, hc], le_refl _⟩
  | succ d ih =>
    by_cases hc : (sweep fn la).2 = true
    · have h1 := outSize_lt_of_changed fn hnd U la hinv hio hc
      obtain ⟨st, n, hr, hn⟩ := ih (sweep fn la).1 (loopInv_sweep hinv) (inOfOut_sweep fn hnd la)
        (by omega)
      refine ⟨st, n + 1, ?_, by omega⟩
      rw [whileChanged, if_pos hc, hr]
      rfl
    · exact ⟨(sweep fn la).1, 1, by simp [whileChanged, hc], by omega⟩

/-- The loop of `run` stops, after at most `|blocks| * |variables| + 2` sweeps. -/
theorem run_terminates (fn : Function) (hnd : (fn.map BasicBlock.id).Nodup) :
    ∃ st n, run fn (fn.length * (allVariables fn).card + 2) = some (st, n) ∧
      n ≤ fn.length * (allVariables fn).card + 2 := by
  show ∃ st n, whileChanged fn (fn.length * (allVariables fn).card + 2) (start fn) = some (st, n) ∧
      n ≤ fn.length * (allVariables fn).card + 2
  by_cases hc : (sweep fn (start fn)).2 = true
  · obtain ⟨st, n, hr, hn⟩ := whileChanged_terminates_from fn hnd (allVariables fn)
      (fn.length * (allVariables fn).card) (sweep fn (start fn)).1 (loopInv_sweep (loopInv_start fn))
      (inOfOut_sweep fn hnd _) (by omega)
    refine ⟨st, n + 1, ?_, by omega⟩
    rw [whileChanged, if_pos hc, hr]
    rfl
  · exact ⟨(sweep fn (start fn)).1, 1, by simp [whileChanged, hc], by omega⟩

/-! ### Every live value is a used value -/

theorem mem_usedValues (fn : Function) (v : Value) :
    v ∈ usedValues fn ↔ ∃ bb ∈ fn, UsedIn bb v := by
  simp only [usedValues, UsedIn, List.mem_toFinset, List.mem_filter, List.mem_flatMap,
    Bool.not_eq_true', Bool.not_eq_eq_eq_not, Bool.not_true]
  constructor
  · rintro ⟨⟨bb, hbb, inst, ⟨hi, ht⟩, hv⟩, hc⟩
    exact ⟨bb, hbb, inst, hi, ht, hv, hc⟩
  · rintro ⟨bb, hbb, inst, hi, ht, hv, hc⟩
    exact ⟨⟨bb, hbb, inst, ⟨hi, ht⟩, hv⟩, hc⟩

theorem usedIn_not_constant {bb : BasicBlock} {v : Value} (h : UsedIn bb v) :
    v.isConstant = false := by
  obtain ⟨_, _, _, _, hc⟩ := h
  exact hc

theorem definedIn_not_constant {bb : BasicBlock} {v : Value} (h : DefinedIn bb v) :
    v.isConstant = false := by
  obtain ⟨_, _, _, _, rfl⟩ := h
  rfl

theorem start_use_subset_usedValues (fn : Function) (k : Nat) :
    (start fn).use_ k ⊆ usedValues fn := by
  intro v hv
  obtain ⟨bb, hbb, _, hu⟩ := (mem_start_use fn k v).1 hv
  exact (mem_usedValues fn v).2 ⟨bb, hbb, hu⟩

/-- After any number of sweeps from the start state, all `liveIn` and `liveOut`
sets are inside the set of used values. -/
theorem sweeps_subset_usedValues (fn : Function) (n : Nat) :
    (∀ k, (sweeps fn (start fn) n).liveIn k ⊆ usedValues fn) ∧
      (∀ k, (sweeps fn (start fn) n).liveOut k ⊆ usedValues fn) := by
  induction n with
  | zero =>
    constructor
    · intro k; rw [sweeps, start_liveIn]; exact Finset.empty_subset _
    · intro k; rw [sweeps, start_liveOut]; exact Finset.empty_subset _
  | succ n ih =>
    have h := sweepFrom_bounded (usedValues fn) fn (sweeps fn (start fn) n, false)
      (by intro b; simp only [sweeps_use]; exact start_use_subset_usedValues fn b) ih.1 ih.2
    rw [← sweep_eq_sweepFrom] at h
    exact h

/-! ### Live paths -/

/-- One sweep over blocks of the function keeps the property that every
element of a `liveIn` set starts a live path. -/
theorem sweepFrom_livePath (fn : Function) (u d : VarMap) (l : List BasicBlock)
    (hl : ∀ bb ∈ l, bb ∈ fn) (acc : LivenessAnalysis × Bool)
    (hu : acc.1.use_ = u) (hd : acc.1.def_ = d)
    (h : ∀ k v, v ∈ acc.1.liveIn k → ∃ p, LivePath fn u d v (k :: p)) :
    ∀ k v, v ∈ (sweepFrom l acc).1.liveIn k → ∃ p, LivePath fn u d v (k :: p) := by
  induction l with
  | nil => exact h
  | cons bb l ih =>
    have ih2 := ih (fun b hb => hl b (List.mem_cons_of_mem _ hb))
    intro k v hv
    rw [sweepFrom_cons, stepBlock_liveIn] at hv
    by_cases hk : k = bb.id
    · rw [if_pos hk, sweepFrom_use, sweepFrom_def, hu, hd, mem_transfer] at hv
      subst hk
      rcases hv with hv | ⟨hv, hnd⟩
      · exact ⟨[], hv⟩
      · obtain ⟨s, hs, hvs⟩ := (mem_unionSuccIn _ _ _).1 hv
        obtain ⟨p, hp⟩ := ih2 s v hvs
        exact ⟨s :: p, hnd, ⟨bb, hl bb (List.mem_cons_self _ _), rfl, hs⟩, hp⟩
    · rw [if_neg hk] at hv
      exact ih2 k v hv

theorem sweeps_livePath (fn : Function) (n : Nat) :
    ∀ k v, v ∈ (sweeps fn (start fn) n).liveIn k →
      ∃ p, LivePath fn (start fn).use_ (start fn).def_ v (k :: p) := by
  induction n with
  | zero =>
    intro k v hv
    rw [sweeps, start_liveIn] at hv
    simp at hv
  | succ n ih =>
    have h := sweepFrom_livePath fn (start fn).use_ (start fn).def_ fn (fun _ hb => hb)
      (sweeps fn (start fn) n, false) (by simp) (by simp) ih
    rw [← sweep_eq_sweepFrom] at h
    exact h

/-- In a state that satisfies both equations, the start of a live path is in `liveIn`. -/
theorem livePath_mem_liveIn (fn : Function) (st : LivenessAnalysis)
    (hu : st.use_ = (start fn).use_)
    (heq : ∀ bb ∈ fn, st.liveOut bb.id = unionSuccIn st.liveIn bb.succs ∧
      st.liveIn bb.id = transfer (st.use_ bb.id) (st.def_ bb.id) (st.liveOut bb.id))
    (v : Value) (p : List Nat) :
    ∀ k, LivePath fn st.use_ st.def_ v (k :: p) → v ∈ st.liveIn k := by
  induction p with
  | nil =>
    intro k hp
    have hv : v ∈ st.use_ k := hp
    have hv2 := hv
    rw [hu] at hv2
    obtain ⟨bb, hbb, rfl, _⟩ := (mem_start_use fn k v).1 hv2
    rw [(heq bb hbb).2, mem_transfer]
    exact Or.inl hv
  | cons s p ih =>
    intro k hp
    obtain ⟨hnd, ⟨bb, hbb, rfl, hs⟩, hrest⟩ := hp
    have hvs := ih s hrest
    rw [(heq bb hbb).2, mem_transfer, (heq bb hbb).1, mem_unionSuccIn]
    exact Or.inr ⟨⟨s, hs, hvs⟩, hnd⟩

/-! ### The loop on an analysis object that was used before -/

theorem run_eq_runOn (fn : Function) (fuel : Nat) :
    run fn fuel = runOn fn LivenessAnalysis.fresh fuel := rfl

/-- From a state satisfying the loop invariant, the loop stops. -/
theorem whileChanged_terminates_of_inv (fn : Function) (hnd : (fn.map BasicBlock.id).Nodup)
    (U : VarSet) (la : LivenessAnalysis) (hinv : LoopInv fn U la) :
    ∃ st n, whileChanged fn (fn.length * U.card + 2) la = some (st, n) ∧
      n ≤ fn.length * U.card + 2 := by
  by_cases hc : (sweep fn la).2 = true
  · obtain ⟨st, n, hr, hn⟩ := whileChanged_terminates_from fn hnd U
      (fn.length * U.card) (sweep fn la).1 (loopInv_sweep hinv)
      (inOfOut_sweep fn hnd _) (by omega)
    refine ⟨st, n + 1, ?_, by omega⟩
    rw [whileChanged, if_pos hc, hr]
    rfl
  · exact ⟨(sweep fn la).1, 1, by simp [whileChanged, hc], by omega⟩

/-- The loop invariant holds after the gen/kill pass on an analysis object whose
sets all lie in a finite set and which holds no `liveIn` or `liveOut` set yet
for the blocks of the function. -/
theorem loopInv_reused (fn : Function) (la0 : LivenessAnalysis) (U : VarSet)
    (hU : ∀ k, la0.use_ k ⊆ U ∧ la0.liveIn k ⊆ U ∧ la0.liveOut k ⊆ U)
    (hnew : ∀ bb ∈ fn, la0.liveIn bb.id = ∅ ∧ la0.liveOut bb.id = ∅) :
    LoopInv fn (U ∪ usedValues fn) (computeGenKillVariables fn la0) := by
  obtain ⟨hli, hlo⟩ := computeGenKillVariables_live fn la0
  refine ⟨⟨by simp, by simp, ?_, ?_⟩, ?_, ?_, ?_⟩
  · intro b
    by_cases hb : b ∈ fn.map BasicBlock.id
    · obtain ⟨bb, hbb, rfl⟩ := List.mem_map.1 hb
      rw [hli, (hnew bb hbb).1]
      exact Finset.empty_subset _
    · have h := (sweepFrom_frame fn (computeGenKillVariables fn la0, false) b hb).1
      rw [← sweep_eq_sweepFrom] at h
      rw [h]
  · intro b
    by_cases hb : b ∈ fn.map BasicBlock.id
    · obtain ⟨bb, hbb, rfl⟩ := List.mem_map.1 hb
      rw [hlo, (hnew bb hbb).2]
      exact Finset.empty_subset _
    · have h := (sweepFrom_frame fn (computeGenKillVariables fn la0, false) b hb).2
      rw [← sweep_eq_sweepFrom] at h
      rw [h]
  · intro b v hv
    rcases (mem_computeGenKillVariables_use fn la0 b v).1 hv with h | ⟨bb, hbb, _, hu⟩
    · exact Finset.mem_union_left _ ((hU b).1 h)
    · exact Finset.mem_union_right _ ((mem_usedValues fn v).2 ⟨bb, hbb, hu⟩)
  · intro b
    rw [hli]
    exact (hU b).2.1.trans Finset.subset_union_left
  · intro b
    rw [hlo]
    exact (hU b).2.2.trans Finset.subset_union_left

/-- On such an analysis object `run` returns; what it returns is the state after
the sweeps performed, and one more sweep of it changes nothing. -/
theorem runOn_result (fn : Function) (hnd : (fn.map BasicBlock.id).Nodup)
    (la0 : LivenessAnalysis) (U : VarSet)
    (hU : ∀ k, la0.use_ k ⊆ U ∧ la0.liveIn k ⊆ U ∧ la0.liveOut k ⊆ U)
    (hnew : ∀ bb ∈ fn, la0.liveIn bb.id = ∅ ∧ la0.liveOut bb.id = ∅) :
    ∃ fuel st n, runOn fn la0 fuel = some (st, n) ∧
      st = sweeps fn (computeGenKillVariables fn la0) n ∧ (sweep fn st).2 = false := by
  obtain ⟨st, n, hr, _⟩ := whileChanged_terminates_of_inv fn hnd _ _
    (loopInv_reused fn la0 U hU hnew)
  obtain ⟨_, _, h3, h4, _⟩ := whileChanged_some fn _ _ st n hr
  exact ⟨_, st, n, hr, h3, h4⟩

/-- All sets of the analysis object after `run` on `otherFn` lie in the used
values of `otherFn`. -/
theorem afterOther_bounded (k : Nat) :
    afterOther.use_ k ⊆ usedValues otherFn ∧ afterOther.liveIn k ⊆ usedValues otherFn ∧
      afterOther.liveOut k ⊆ usedValues otherFn := by
  refine ⟨?_, (sweeps_subset_usedValues otherFn 2).1 k, (sweeps_subset_usedValues otherFn 2).2 k⟩
  unfold afterOther
  rw [sweeps_use]
  exact start_use_subset_usedValues otherFn k

/-! ### The result of `run` -/

theorem unionSuccIn_eq_biUnion (m : VarMap) (succs : List Nat) :
    unionSuccIn m succs = succs.toFinset.biUnion m := by
  ext v
  simp [mem_unionSuccIn]

/-- With distinct block identities `run` returns; what it returns is the state
after the sweeps performed, and one more sweep of it changes nothing. -/
theorem run_result (fn : Function) (hnd : (fn.map BasicBlock.id).Nodup) :
    ∃ fuel st n, run fn fuel = some (st, n) ∧ 1 ≤ n ∧ st = sweeps fn (start fn) n ∧
      (sweep fn st).2 = false ∧ (sweep fn st).1 = st := by
  obtain ⟨st, n, hr, _⟩ := run_terminates fn hnd
  obtain ⟨h1, _, h3, h4, h5⟩ := whileChanged_some fn _ (start fn) st n hr
  exact ⟨_, st, n, hr, h1, h3, h4, h5⟩

/-- The two dataflow equations hold in a state that a sweep leaves unchanged. -/
theorem equations_of_unchanged (fn : Function) (st : LivenessAnalysis)
    (h : (sweep fn st).2 = false) :
    ∀ bb ∈ fn, st.liveOut bb.id = bb.succs.toFinset.biUnion st.liveIn ∧
      st.liveIn bb.id = st.use_ bb.id ∪ (st.liveOut bb.id \ st.def_ bb.id) := by
  intro bb hbb
  obtain ⟨h1, h2⟩ := (sweep_unchanged fn st h).2 bb hbb
  rw [unionSuccIn_eq_biUnion] at h1
  rw [transfer_eq] at h2
  exact ⟨h1, h2⟩

/-! ### States that satisfy both equations -/

/-- A sweep of a state in which every block satisfies both equations leaves the
flag as it was and the state unchanged. -/
theorem sweepFrom_of_equations (fn : Function) (acc : LivenessAnalysis × Bool)
    (heq : ∀ bb ∈ fn, acc.1.liveOut bb.id = unionSuccIn acc.1.liveIn bb.succs ∧
      acc.1.liveIn bb.id = transfer (acc.1.use_ bb.id) (acc.1.def_ bb.id) (acc.1.liveOut bb.id)) :
    (sweepFrom fn acc).2 = acc.2 ∧ (sweepFrom fn acc).1 = acc.1 := by
  induction fn with
  | nil => exact ⟨rfl, rfl⟩
  | cons bb fn ih =>
    obtain ⟨hflag, hst⟩ := ih (fun b hb => heq b (List.mem_cons_of_mem _ hb))
    obtain ⟨ho, hi⟩ := heq bb (List.mem_cons_self _ _)
    have ho2 : (sweepFrom fn acc).1.liveOut bb.id =
        unionSuccIn (sweepFrom fn acc).1.liveIn bb.succs := by rw [hst]; exact ho
    have hi2 : transfer ((sweepFrom fn acc).1.use_ bb.id) ((sweepFrom fn acc).1.def_ bb.id)
        (unionSuccIn (sweepFrom fn acc).1.liveIn bb.succs) = (sweepFrom fn acc).1.liveIn bb.id := by
      rw [hst, ← ho]; exact hi.symm
    constructor
    · rw [sweepFrom_cons]
      cases hc : (stepBlock (sweepFrom fn acc) bb).2
      · cases hacc : acc.2
        · rfl
        · rw [hacc] at hflag
          have := (stepBlock_changed (sweepFrom fn acc) bb).2 (Or.inl hflag)
          rw [hc] at this
          cases this
      · rcases (stepBlock_changed (sweepFrom fn acc) bb).1 hc with h | h | h
        · rw [← hflag, h]
        · exact absurd ho2 h
        · exact absurd hi2 h
    · rw [sweepFrom_cons, stepBlock_eq_self _ bb ho2 hi2, hst]

theorem sweep_of_equations (fn : Function) (la : LivenessAnalysis)
    (heq : ∀ bb ∈ fn, la.liveOut bb.id = unionSuccIn la.liveIn bb.succs ∧
      la.liveIn bb.id = transfer (la.use_ bb.id) (la.def_ bb.id) (la.liveOut bb.id)) :
    (sweep fn la).2 = false ∧ (sweep fn la).1 = la := by
  rw [sweep_eq_sweepFrom]
  exact sweepFrom_of_equations fn (la, false) heq

/-- From a state that satisfies both equations the loop stops after one sweep. -/
theorem whileChanged_of_equations (fn : Function) (la : LivenessAnalysis) (fuel : Nat)
    (heq : ∀ bb ∈ fn, la.liveOut bb.id = unionSuccIn la.liveIn bb.succs ∧
      la.liveIn bb.id = transfer (la.use_ bb.id) (la.def_ bb.id) (la.liveOut bb.id)) :
    whileChanged fn (fuel + 1) la = some (la, 1) := by
  obtain ⟨h1, h2⟩ := sweep_of_equations fn la heq
  simp [whileChanged, h1, h2]

theorem unionSuccIn_congr {m m2 : VarMap} {succs : List Nat} (h : ∀ s ∈ succs, m s = m2 s) :
    unionSuccIn m succs = unionSuccIn m2 succs := by
  ext v
  rw [mem_unionSuccIn, mem_unionSuccIn]
  constructor
  · rintro ⟨s, hs, hv⟩
    exact ⟨s, hs, h s hs ▸ hv⟩
  · rintro ⟨s, hs, hv⟩
    exact ⟨s, hs, (h s hs).symm ▸ hv⟩

/-- A key that belongs to no block of the function keeps its sets through any
number of sweeps. -/
theorem sweeps_frame (fn : Function) (la : LivenessAnalysis) (n : Nat) (k : Nat)
    (hk : k ∉ fn.map BasicBlock.id) :
    (sweeps fn la n).liveIn k = la.liveIn k ∧ (sweeps fn la n).liveOut k = la.liveOut k := by
  induction n with
  | zero => exact ⟨rfl, rfl⟩
  | succ n ih =>
    have h := sweepFrom_frame fn (sweeps fn la n, false) k hk
    rw [← sweep_eq_sweepFrom] at h
    exact ⟨h.1.trans ih.1, h.2.trans ih.2⟩

/-! ### The least solution -/

/-- A sweep keeps the state below every solution of the equations. -/
theorem sweepFrom_le_solution (fn : Function) (I O : VarMap) (acc : LivenessAnalysis × Bool)
    (hsol : ∀ bb ∈ fn, O bb.id = unionSuccIn I bb.succs ∧
      I bb.id = transfer (acc.1.use_ bb.id) (acc.1.def_ bb.id) (O bb.id))
    (hi : ∀ k, acc.1.liveIn k ⊆ I k) (ho : ∀ k, acc.1.liveOut k ⊆ O k) :
    (∀ k, (sweepFrom fn acc).1.liveIn k ⊆ I k) ∧ (∀ k, (sweepFrom fn acc).1.liveOut k ⊆ O k) := by
  induction fn with
  | nil => exact ⟨hi, ho⟩
  | cons bb fn ih =>
    obtain ⟨ihi, iho⟩ := ih (fun b hb => hsol b (List.mem_cons_of_mem _ hb))
    obtain ⟨hO, hI⟩ := hsol bb (List.mem_cons_self _ _)
    have hout : unionSuccIn (sweepFrom fn acc).1.liveIn bb.succs ⊆ O bb.id := by
      rw [hO]
      exact unionSuccIn_mono ihi _
    constructor
    · intro k
      rw [sweepFrom_cons, stepBlock_liveIn]
      split_ifs with hk
      · rw [hk, hI, sweepFrom_use, sweepFrom_def]
        exact transfer_mono _ _ hout
      · exact ihi k
    · intro k
      rw [sweepFrom_cons, stepBlock_liveOut]
      split_ifs with hk
      · rw [hk]; exact hout
      · exact iho k

theorem sweeps_le_solution (fn : Function) (I O : VarMap) (la : LivenessAnalysis)
    (hsol : ∀ bb ∈ fn, O bb.id = unionSuccIn I bb.succs ∧
      I bb.id = transfer (la.use_ bb.id) (la.def_ bb.id) (O bb.id))
    (hi : ∀ k, la.liveIn k ⊆ I k) (ho : ∀ k, la.liveOut k ⊆ O k) (n : Nat) :
    (∀ k, (sweeps fn la n).liveIn k ⊆ I k) ∧ (∀ k, (sweeps fn la n).liveOut k ⊆ O k) := by
  induction n with
  | zero => exact ⟨hi, ho⟩
  | succ n ih =>
    have h := sweepFrom_le_solution fn I O (sweeps fn la n, false)
      (by simpa using hsol) ih.1 ih.2
    rw [← sweep_eq_sweepFrom] at h
    exact h

/-! ### Other visiting orders -/

theorem sweepInOrder_eq (order : List BasicBlock) (la : LivenessAnalysis) :
    sweepInOrder order la = sweep order.reverse la := by
  simp [sweepInOrder, sweep]

theorem whileChangedInOrder_eq (order : List BasicBlock) (fuel : Nat) (la : LivenessAnalysis) :
    whileChangedInOrder order fuel la = whileChanged order.reverse fuel la := by
  induction fuel generalizing la with
  | zero => rfl
  | succ fuel ih =>
    simp only [whileChangedInOrder, whileChanged, sweepInOrder_eq, ih]

theorem analysis_ext (a b : LivenessAnalysis) (h1 : a.use_ = b.use_) (h2 : a.def_ = b.def_)
    (h3 : a.liveIn = b.liveIn) (h4 : a.liveOut = b.liveOut) : a = b := by
  cases a
  cases b
  simp only [LivenessAnalysis.mk.injEq]
  exact ⟨h1, h2, h3, h4⟩

/-- The gen/kill pass does not depend on the order of the blocks. -/
theorem start_perm (l1 l2 : Function) (h : l1.Perm l2) : start l1 = start l2 := by
  apply analysis_ext
  · funext k
    ext v
    rw [mem_start_use, mem_start_use]
    constructor
    · rintro ⟨bb, hbb, hr⟩
      exact ⟨bb, h.mem_iff.1 hbb, hr⟩
    · rintro ⟨bb, hbb, hr⟩
      exact ⟨bb, h.mem_iff.2 hbb, hr⟩
  · funext k
    ext v
    rw [mem_start_def, mem_start_def]
    constructor
    · rintro ⟨bb, hbb, hr⟩
      exact ⟨bb, h.mem_iff.1 hbb, hr⟩
    · rintro ⟨bb, hbb, hr⟩
      exact ⟨bb, h.mem_iff.2 hbb, hr⟩
  · funext k
    rw [start_liveIn, start_liveIn]
  · funext k
    rw [start_liveOut, start_liveOut]

/-- Two states reached by sweeps from the same state with empty `liveIn` and
`liveOut` maps, over two lists with the same blocks, each left unchanged by the
sweep over its list, have the same `liveIn` and `liveOut` maps. -/
theorem fixed_states_agree (l1 l2 : Function) (hmem : ∀ b, b ∈ l1 ↔ b ∈ l2)
    (la : LivenessAnalysis) (hin : ∀ k, la.liveIn k = ∅) (hout : ∀ k, la.liveOut k = ∅)
    (n1 n2 : Nat) (h1 : (sweep l1 (sweeps l1 la n1)).2 = false)
    (h2 : (sweep l2 (sweeps l2 la n2)).2 = false) :
    ∀ k, (sweeps l1 la n1).liveIn k = (sweeps l2 la n2).liveIn k ∧
      (sweeps l1 la n1).liveOut k = (sweeps l2 la n2).liveOut k := by
  have e1 := (sweep_unchanged l1 _ h1).2
  have e2 := (sweep_unchanged l2 _ h2).2
  simp only [sweeps_use, sweeps_def] at e1 e2
  have a12 := sweeps_le_solution l1 (sweeps l2 la n2).liveIn (sweeps l2 la n2).liveOut la
    (fun bb hbb => e2 bb ((hmem bb).1 hbb))
    (fun k => by rw [hin]; exact Finset.empty_subset _)
    (fun k => by rw [hout]; exact Finset.empty_subset _) n1
  have a21 := sweeps_le_solution l2 (sweeps l1 la n1).liveIn (sweeps l1 la n1).liveOut la
    (fun bb hbb => e1 bb ((hmem bb).2 hbb))
    (fun k => by rw [hin]; exact Finset.empty_subset _)
    (fun k => by rw [hout]; exact Finset.empty_subset _) n2
  intro k
  exact ⟨Finset.Subset.antisymm (a12.1 k) (a21.1 k), Finset.Subset.antisymm (a12.2 k) (a21.2 k)⟩

/-! ### The stopping test on `liveIn` alone -/

theorem stepBlockIn_state (a b : LivenessAnalysis × Bool) (bb : BasicBlock) (h : a.1 = b.1) :
    (stepBlockIn a bb).1 = (stepBlock b bb).1 := by
  simp only [stepBlockIn, stepBlock, h]

theorem stepBlockIn_changed (acc : LivenessAnalysis × Bool) (bb : BasicBlock) :
    (stepBlockIn acc bb).2 = true ↔
      (acc.2 = true ∨
        transfer (acc.1.use_ bb.id) (acc.1.def_ bb.id) (unionSuccIn acc.1.liveIn bb.succs)
          ≠ acc.1.liveIn bb.id) := by
  simp only [stepBlockIn]
  by_cases h2 : transfer (acc.1.use_ bb.id) (acc.1.def_ bb.id)
      (unionSuccIn acc.1.liveIn bb.succs) = acc.1.liveIn bb.id <;>
  simp [h2]

theorem sweepIn_eq_sweepInFrom (fn : Function) (la : LivenessAnalysis) :
    sweepIn fn la = sweepInFrom fn (la, false) := by
  simp [sweepIn, sweepInFrom, List.foldl_reverse]

theorem sweepInFrom_state (fn : Function) (a b : LivenessAnalysis × Bool) (h : a.1 = b.1) :
    (sweepInFrom fn a).1 = (sweepFrom fn b).1 := by
  induction fn with
  | nil => exact h
  | cons bb fn ih => exact stepBlockIn_state _ _ bb ih

/-- Both sweeps compute the same state. -/
theorem sweepIn_state (fn : Function) (la : LivenessAnalysis) :
    (sweepIn fn la).1 = (sweep fn la).1 := by
  rw [sweepIn_eq_sweepInFrom, sweep_eq_sweepFrom]
  exact sweepInFrom_state fn _ _ rfl

/-- The flag of the code is up whenever the flag on `liveIn` alone is up. -/
theorem sweepInFrom_flag (fn : Function) (a b : LivenessAnalysis × Bool) (h : a.1 = b.1)
    (hf : a.2 = true → b.2 = true) :
    (sweepInFrom fn a).2 = true → (sweepFrom fn b).2 = true := by
  induction fn with
  | nil => exact hf
  | cons bb fn ih =>
    intro hc
    have hs := sweepInFrom_state fn a b h
    show (stepBlock (sweepFrom fn b) bb).2 = true
    rw [stepBlock_changed]
    rcases (stepBlockIn_changed (sweepInFrom fn a) bb).1 hc with h1 | h1
    · exact Or.inl (ih h1)
    · rw [hs] at h1
      exact Or.inr (Or.inr h1)

theorem sweepIn_flag (fn : Function) (la : LivenessAnalysis) (h : (sweepIn fn la).2 = true) :
    (sweep fn la).2 = true := by
  rw [sweepIn_eq_sweepInFrom] at h
  rw [sweep_eq_sweepFrom]
  exact sweepInFrom_flag fn (la, false) (la, false) rfl id h

/-- When the flag on `liveIn` ends down, no step wrote a new `liveIn` set. -/
theorem sweepInFrom_unchanged (fn : Function) (acc : LivenessAnalysis × Bool)
    (h : (sweepInFrom fn acc).2 = false) :
    acc.2 = false ∧ (sweepInFrom fn acc).1.liveIn = acc.1.liveIn := by
  induction fn with
  | nil => exact ⟨h, rfl⟩
  | cons bb fn ih =>
    have hc := stepBlockIn_changed (sweepInFrom fn acc) bb
    have h2 : (stepBlockIn (sweepInFrom fn acc) bb).2 = false := h
    rw [h2] at hc
    simp only [Bool.false_eq_true, false_iff, not_or, ne_eq, not_not, Bool.not_eq_true] at hc
    obtain ⟨hflag, hin⟩ := hc
    obtain ⟨ha, hl⟩ := ih hflag
    refine ⟨ha, ?_⟩
    rw [← hl]
    funext k
    show (stepBlockIn (sweepInFrom fn acc) bb).1.liveIn k = _
    simp only [stepBlockIn, VarMap.assign]
    split_ifs with hk
    · rw [hk]; exact hin
    · rfl

/-- With distinct block identities, a sweep after which every block has the
`liveIn` set it had before wrote, at every step, the `liveIn` set that was
there, and left every block with the union of those sets as `liveOut`. -/
theorem sweepFrom_liveIn_fixed (fn : Function) (hnd : (fn.map BasicBlock.id).Nodup)
    (acc : LivenessAnalysis × Bool)
    (h : ∀ bb ∈ fn, (sweepFrom fn acc).1.liveIn bb.id = acc.1.liveIn bb.id) :
    (sweepFrom fn acc).1.liveIn = acc.1.liveIn ∧
      (∀ bb ∈ fn, (sweepFrom fn acc).1.liveOut bb.id = unionSuccIn acc.1.liveIn bb.succs) ∧
      (sweepInFrom fn acc).2 = acc.2 := by
  induction fn with
  | nil => exact ⟨rfl, by simp, rfl⟩
  | cons b fn ih =>
    rw [List.map_cons, List.nodup_cons] at hnd
    obtain ⟨hnot, hnd⟩ := hnd
    have hrest : ∀ bb ∈ fn, (sweepFrom fn acc).1.liveIn bb.id = acc.1.liveIn bb.id := by
      intro bb hbb
      have hne : bb.id ≠ b.id := fun e => hnot (e ▸ List.mem_map_of_mem _ hbb)
      have := h bb (List.mem_cons_of_mem _ hbb)
      rw [sweepFrom_cons, stepBlock_liveIn, if_neg hne] at this
      exact this
    obtain ⟨hin, hout, hflag⟩ := ih hnd hrest
    have hb := h b (List.mem_cons_self _ _)
    rw [sweepFrom_cons, stepBlock_liveIn, if_pos rfl] at hb
    refine ⟨?_, ?_, ?_⟩
    · funext k
      rw [sweepFrom_cons, stepBlock_liveIn]
      split_ifs with hk
      · rw [hk]; exact hb
      · rw [hin]
    · intro bb hbb
      rw [sweepFrom_cons, stepBlock_liveOut]
      rcases List.mem_cons.1 hbb with rfl | hbb
      · rw [if_pos rfl, hin]
      · have hne : bb.id ≠ b.id := fun e => hnot (e ▸ List.mem_map_of_mem _ hbb)
        rw [if_neg hne]
        exact hout bb hbb
    · have hs : (sweepInFrom fn acc).1 = (sweepFrom fn acc).1 := sweepInFrom_state fn _ _ rfl
      show (stepBlockIn (sweepInFrom fn acc) b).2 = acc.2
      cases hc : (stepBlockIn (sweepInFrom fn acc) b).2
      · cases hacc : acc.2
        · rfl
        · rw [hacc] at hflag
          have := (stepBlockIn_changed (sweepInFrom fn acc) b).2 (Or.inl hflag)
          rw [hc] at this
          cases this
      · rcases (stepBlockIn_changed (sweepInFrom fn acc) b).1 hc with h1 | h1
        · rw [← hflag, h1]
        · rw [hs, hin] at h1
          rw [hin] at hb
          exact absurd hb h1

/-- With distinct block identities, after a sweep that leaves every block's
`liveIn` set as it was, every block satisfies both equations. -/
theorem equations_of_liveIn_fixed (fn : Function) (hnd : (fn.map BasicBlock.id).Nodup)
    (la : LivenessAnalysis)
    (h : ∀ bb ∈ fn, (sweep fn la).1.liveIn bb.id = la.liveIn bb.id) :
    ∀ bb ∈ fn,
      (sweep fn la).1.liveOut bb.id = unionSuccIn (sweep fn la).1.liveIn bb.succs ∧
      (sweep fn la).1.liveIn bb.id =
        transfer ((sweep fn la).1.use_ bb.id) ((sweep fn la).1.def_ bb.id)
          ((sweep fn la).1.liveOut bb.id) := by
  rw [sweep_eq_sweepFrom] at h ⊢
  obtain ⟨hin, hout, _⟩ := sweepFrom_liveIn_fixed fn hnd (la, false) h
  intro bb hbb
  refine ⟨?_, ?_⟩
  · rw [hout bb hbb, hin]
  · have := (sweepFrom_after fn hnd (la, false) bb hbb).2
    simpa using this

/-- With distinct block identities, the flag on `liveIn` alone ends down
exactly when the sweep leaves every block's `liveIn` set as it was. -/
theorem sweepIn_flag_iff (fn : Function) (hnd : (fn.map BasicBlock.id).Nodup)
    (la : LivenessAnalysis) :
    (sweepIn fn la).2 = false ↔ ∀ bb ∈ fn, (sweep fn la).1.liveIn bb.id = la.liveIn bb.id := by
  constructor
  · intro h bb _
    rw [sweepIn_eq_sweepInFrom] at h
    have := (sweepInFrom_unchanged fn (la, false) h).2
    rw [← sweepIn_eq_sweepInFrom, sweepIn_state] at this
    rw [this]
  · intro h
    rw [sweep_eq_sweepFrom] at h
    rw [sweepIn_eq_sweepInFrom]
    exact (sweepFrom_liveIn_fixed fn hnd (la, false) h).2.2

/-- Whatever the loop on `liveIn` alone returns, the loop of the code returns
the same state, after the same number of sweeps or one more. -/
theorem whileChanged_of_whileInChanged (fn : Function) (hnd : (fn.map BasicBlock.id).Nodup)
    (fuel : Nat) (la st : LivenessAnalysis) (n : Nat)
    (h : whileInChanged fn fuel la = some (st, n)) :
    ∃ m, whileChanged fn (fuel + 1) la = some (st, m) ∧ n ≤ m ∧ m ≤ n + 1 := by
  induction fuel generalizing la n with
  | zero => simp [whileInChanged] at h
  | succ fuel ih =>
    simp only [whileInChanged] at h
    by_cases hc : (sweepIn fn la).2 = true
    · rw [if_pos hc] at h
      cases hr : whileInChanged fn fuel (sweepIn fn la).1 with
      | none => rw [hr] at h; simp at h
      | some p =>
        obtain ⟨st2, n2⟩ := p
        rw [hr] at h
        simp only [Option.map_some', Option.some.injEq, Prod.mk.injEq] at h
        obtain ⟨h1, h2⟩ := h
        subst h1 h2
        rw [sweepIn_state] at hr
        obtain ⟨m, hm, hle, hge⟩ := ih _ _ hr
        refine ⟨m + 1, ?_, by omega, by omega⟩
        rw [whileChanged, if_pos (sweepIn_flag fn la hc), hm]
        rfl
    · rw [if_neg hc] at h
      simp only [Option.some.injEq, Prod.mk.injEq] at h
      obtain ⟨h1, h2⟩ := h
      subst h1 h2
      rw [sweepIn_state]
      have hfalse : (sweepIn fn la).2 = false := by simpa using hc
      have heq := equations_of_liveIn_fixed fn hnd la ((sweepIn_flag_iff fn hnd la).1 hfalse)
      by_cases hs : (sweep fn la).2 = true
      · refine ⟨2, ?_, by omega, by omega⟩
        rw [whileChanged, if_pos hs, whileChanged_of_equations fn _ fuel heq]
        rfl
      · refine ⟨1, ?_, le_refl _, by omega⟩
        rw [whileChanged, if_neg hs]

/-- Whatever the loop of the code returns, the loop on `liveIn` alone returns
the same state, after at most as many sweeps. -/
theorem whileInChanged_of_whileChanged (fn : Function) (hnd : (fn.map BasicBlock.id).Nodup)
    (fuel : Nat) (la st : LivenessAnalysis) (m : Nat)
    (h : whileChanged fn fuel la = some (st, m)) :
    ∃ n, whileInChanged fn fuel la = some (st, n) ∧ n ≤ m := by
  induction fuel generalizing la m with
  | zero => simp [whileChanged] at h
  | succ fuel ih =>
    simp only [whileChanged] at h
    by_cases hs : (sweep fn la).2 = true
    · rw [if_pos hs] at h
      cases hr : whileChanged fn fuel (sweep fn la).1 with
      | none => rw [hr] at h; simp at h
      | some p =>
        obtain ⟨st2, m2⟩ := p
        rw [hr] at h
        simp only [Option.map_some', Option.some.injEq, Prod.mk.injEq] at h
        obtain ⟨h1, h2⟩ := h
        subst h1 h2
        by_cases hc : (sweepIn fn la).2 = true
        · obtain ⟨n, hn, hle⟩ := ih _ _ hr
          refine ⟨n + 1, ?_, by omega⟩
          rw [whileInChanged, if_pos hc, sweepIn_state, hn]
          rfl
        · have hfalse : (sweepIn fn la).2 = false := by simpa using hc
          have heq := equations_of_liveIn_fixed fn hnd la
            ((sweepIn_flag_iff fn hnd la).1 hfalse)
          obtain ⟨k, rfl⟩ : ∃ k, fuel = k + 1 := by
            cases fuel with
            | zero => simp [whileChanged] at hr
            | succ k => exact ⟨k, rfl⟩
          rw [whileChanged_of_equations fn _ k heq] at hr
          simp only [Option.some.injEq, Prod.mk.injEq] at hr
          refine ⟨1, ?_, by omega⟩
          rw [whileInChanged, if_neg hc, sweepIn_state, hr.1]
    · rw [if_neg hs] at h
      simp only [Option.some.injEq, Prod.mk.injEq] at h
      obtain ⟨h1, h2⟩ := h
      subst h1 h2
      have hc : ¬ (sweepIn fn la).2 = true := fun hc => hs (sweepIn_flag fn la hc)
      refine ⟨1, ?_, le_refl _⟩
      rw [whileInChanged, if_neg hc, sweepIn_state]

/-! ### Blocks laid out in topological order -/

theorem topoOrdered_succs (fn : Function) (h : TopoOrdered fn) :
    ∀ bb ∈ fn, ∀ s ∈ bb.succs, s ∈ fn.map BasicBlock.id := by
  induction fn with
  | nil => simp
  | cons b fn ih =>
    obtain ⟨hb, hrest⟩ := h
    intro bb hbb s hs
    rw [List.map_cons]
    rcases List.mem_cons.1 hbb with rfl | hbb
    · exact List.mem_cons_of_mem _ (hb s hs)
    · exact List.mem_cons_of_mem _ (ih hrest bb hbb s hs)

/-- With distinct block identities and every successor strictly later in the
layout, one sweep from any state leaves every block satisfying both equations. -/
theorem sweepFrom_topoOrdered (fn : Function) (hnd : (fn.map BasicBlock.id).Nodup)
    (htopo : TopoOrdered fn) (acc : LivenessAnalysis × Bool) :
    ∀ bb ∈ fn,
      (sweepFrom fn acc).1.liveOut bb.id = unionSuccIn (sweepFrom fn acc).1.liveIn bb.succs ∧
      (sweepFrom fn acc).1.liveIn bb.id =
        transfer ((sweepFrom fn acc).1.use_ bb.id) ((sweepFrom fn acc).1.def_ bb.id)
          ((sweepFrom fn acc).1.liveOut bb.id) := by
  induction fn with
  | nil => simp
  | cons b fn ih =>
    have hnd0 := hnd
    rw [List.map_cons, List.nodup_cons] at hnd
    obtain ⟨hnot, hnd⟩ := hnd
    obtain ⟨hb, hrest⟩ := htopo
    have ih2 := ih hnd hrest
    -- the step of `b` writes only the key of `b`, which no successor below names
    have hkeep : ∀ l : List Nat, (∀ s ∈ l, s ∈ fn.map BasicBlock.id) →
        unionSuccIn (stepBlock (sweepFrom fn acc) b).1.liveIn l =
          unionSuccIn (sweepFrom fn acc).1.liveIn l := by
      intro l hl
      apply unionSuccIn_congr
      intro s hs
      have hne : s ≠ b.id := fun e => hnot (e ▸ hl s hs)
      rw [stepBlock_liveIn, if_neg hne]
    intro bb hbb
    refine ⟨?_, ?_⟩
    · rw [sweepFrom_cons, hkeep bb.succs ?_, stepBlock_liveOut]
      · rcases List.mem_cons.1 hbb with rfl | hbb
        · rw [if_pos rfl]
        · have hne : bb.id ≠ b.id := fun e => hnot (e ▸ List.mem_map_of_mem _ hbb)
          rw [if_neg hne]
          exact (ih2 bb hbb).1
      · rcases List.mem_cons.1 hbb with rfl | hbb
        · exact hb
        · exact topoOrdered_succs fn hrest bb hbb
    · have := (sweepFrom_after (b :: fn) hnd0 acc bb hbb).2
      simpa using this

/-- When `run` reports `c` sweeps, what it returns is the state after `c` sweeps. -/
theorem run_of_count (fn : Function) (fuel c : Nat)
    (h : (run fn fuel).map Prod.snd = some c) :
    ∃ st, run fn fuel = some (st, c) ∧ st = sweeps fn (start fn) c := by
  cases hr : run fn fuel with
  | none => rw [hr] at h; simp at h
  | some p =>
    obtain ⟨st, n⟩ := p
    rw [hr] at h
    simp only [Option.map_some', Option.some.injEq] at h
    subst h
    exact ⟨st, rfl, (whileChanged_some fn fuel (start fn) st n hr).2.2.1⟩

/-! ### The maps with their entries: what they read as -/

theorem read_touch (m : EntryMap) (k : Nat) : (m.touch k).read = m.read := by
  funext j
  simp only [EntryMap.read, EntryMap.touch]
  split_ifs with h
  · rw [h]; rfl
  · rfl

theorem read_write (m : EntryMap) (k : Nat) (s : VarSet) :
    (m.write k s).read = VarMap.assign m.read k s := by
  funext j
  simp only [EntryMap.read, EntryMap.write, VarMap.assign]
  split_ifs <;> rfl

theorem foldl_succStepE (succs : List Nat) (p : EntryMap × VarSet) :
    (succs.foldl succStepE p).1.read = p.1.read ∧
      (succs.foldl succStepE p).2 = succs.foldl (fun acc s => acc ∪ p.1.read s) p.2 := by
  induction succs generalizing p with
  | nil => exact ⟨rfl, rfl⟩
  | cons a l ih =>
    rw [List.foldl_cons, List.foldl_cons]
    obtain ⟨h1, h2⟩ := ih (succStepE p a)
    have hr : (succStepE p a).1.read = p.1.read := read_touch p.1 a
    rw [hr] at h1 h2
    exact ⟨h1, h2⟩

/-- The block step with entries reads as the block step. -/
theorem valuesOf_stepBlockE (acc : ProgramState × Bool) (bb : BasicBlock) :
    valuesOf (stepBlockE acc bb) = stepBlock (valuesOf acc) bb := by
  obtain ⟨h1, h2⟩ := foldl_succStepE bb.succs ((acc.1.maps.liveInE.touch bb.id), ∅)
  simp only [read_touch] at h1 h2
  have hout : (bb.succs.foldl succStepE ((acc.1.maps.liveInE.touch bb.id), ∅)).2 =
      unionSuccIn acc.1.maps.liveInE.read bb.succs := h2
  simp only [valuesOf, stepBlockE, stepBlock, AnalysisEntries.values, hout, read_write, h1,
    read_touch, Prod.mk.injEq, LivenessAnalysis.mk.injEq, true_and, and_true]
  split_ifs <;> simp [read_touch]

theorem foldl_stepBlockE_fn (l : List BasicBlock) (acc : ProgramState × Bool) :
    (l.foldl stepBlockE acc).1.fn = acc.1.fn := by
  induction l generalizing acc with
  | nil => rfl
  | cons b l ih => rw [List.foldl_cons, ih]; rfl

theorem valuesOf_foldl (l : List BasicBlock) (acc : ProgramState × Bool) :
    valuesOf (l.foldl stepBlockE acc) = l.foldl stepBlock (valuesOf acc) := by
  induction l generalizing acc with
  | nil => rfl
  | cons b l ih => rw [List.foldl_cons, List.foldl_cons, ih, valuesOf_stepBlockE]

theorem sweepE_fn (ps : ProgramState) : (sweepE ps).1.fn = ps.fn :=
  foldl_stepBlockE_fn _ _

/-- The sweep with entries reads as the sweep. -/
theorem valuesOf_sweepE (ps : ProgramState) :
    valuesOf (sweepE ps) = sweep ps.fn ps.maps.values :=
  valuesOf_foldl _ _

/-- The loop with entries reads as the loop. -/
theorem whileChangedE_values (fuel : Nat) (ps : ProgramState) :
    (whileChangedE fuel ps).map (fun r => (r.1.maps.values, r.2)) =
      whileChanged ps.fn fuel ps.maps.values := by
  induction fuel generalizing ps with
  | zero => rfl
  | succ fuel ih =>
    have hv := valuesOf_sweepE ps
    have h1 : (sweepE ps).1.maps.values = (sweep ps.fn ps.maps.values).1 :=
      congrArg Prod.fst hv
    have h2 : (sweepE ps).2 = (sweep ps.fn ps.maps.values).2 := congrArg Prod.snd hv
    simp only [whileChangedE, whileChanged]
    rw [← h2, ← h1]
    by_cases hc : (sweepE ps).2 = true
    · rw [if_pos hc, if_pos hc, ← sweepE_fn ps, ← ih]
      cases whileChangedE fuel (sweepE ps).1 <;> rfl
    · rw [if_neg hc, if_neg hc]
      rfl

theorem addOperandsE_read (b : Nat) (u : EntryMap) (ops : List Value) :
    (addOperandsE b u ops).read = addOperands b u.read ops := by
  unfold addOperandsE addOperands
  induction ops generalizing u with
  | nil => rfl
  | cons op ops ih =>
    rw [List.foldl_cons, List.foldl_cons, ih]
    congr 1
    split_ifs
    · rw [read_write]
      funext j
      simp only [VarMap.assign, VarMap.insertAt]
      split_ifs with h
      · rw [h]
      · rfl
    · rfl

theorem genKillInstE_values (b : Nat) (e : AnalysisEntries) (inst : Instruction) :
    (genKillInstE b e inst).values = genKillInst b e.values inst := by
  have hw : ∀ (m : EntryMap) (v : Value),
      (m.write b (insert v (m.read b))).read = VarMap.insertAt m.read b v := by
    intro m v
    rw [read_write]
    funext j
    simp only [VarMap.assign, VarMap.insertAt]
    split_ifs with h
    · rw [h]
    · rfl
  unfold genKillInstE genKillInst
  split_ifs <;>
    simp only [AnalysisEntries.values, addOperandsE_read, hw]

theorem genKillBlockE_values (e : AnalysisEntries) (bb : BasicBlock) :
    (genKillBlockE e bb).values = genKillBlock e.values bb := by
  unfold genKillBlockE genKillBlock
  generalize bb.insts = l
  induction l generalizing e with
  | nil => rfl
  | cons i l ih => rw [List.foldl_cons, List.foldl_cons, ih, genKillInstE_values]

/-- The gen/kill pass with entries reads as the gen/kill pass. -/
theorem computeGenKillVariablesE_values (fn : Function) (e : AnalysisEntries) :
    (computeGenKillVariablesE fn e).values = computeGenKillVariables fn e.values := by
  unfold computeGenKillVariablesE computeGenKillVariables
  induction fn generalizing e with
  | nil => rfl
  | cons b l ih => rw [List.foldl_cons, List.foldl_cons, ih, genKillBlockE_values]

/-- On a fresh analysis object, `runE` reads as `run`. -/
theorem runE_values (fn : Function) (fuel : Nat) :
    (runE fn AnalysisEntries.fresh fuel).map (fun r => (r.1.maps.values, r.2)) =
      run fn fuel := by
  unfold runE run
  rw [whileChangedE_values]
  show whileChanged fn fuel (computeGenKillVariablesE fn AnalysisEntries.fresh).values = _
  rw [computeGenKillVariablesE_values]
  rfl

/-! ### The maps with their entries: which entries a sweep creates -/

theorem touched_refl (K : List Nat) (m : EntryMap) : Touched K m m :=
  fun _ => Or.inl rfl

theorem touched_trans {K : List Nat} {m m2 m3 : EntryMap} (h1 : Touched K m m2)
    (h2 : Touched K m2 m3) : Touched K m m3 := by
  intro k
  rcases h2 k with h | ⟨hk, hn, hs⟩
  · rcases h1 k with h0 | ⟨hk, hn, hs⟩
    · exact Or.inl (h.trans h0)
    · exact Or.inr ⟨hk, hn, h.trans hs⟩
  · rcases h1 k with h0 | ⟨_, _, hs0⟩
    · exact Or.inr ⟨hk, h0 ▸ hn, hs⟩
    · rw [hn] at hs0
      cases hs0

theorem touched_touch (K : List Nat) (m : EntryMap) (k : Nat) (hk : k ∈ K) :
    Touched K m (m.touch k) := by
  intro j
  simp only [EntryMap.touch, EntryMap.read]
  split_ifs with h
  · subst h
    cases hm : m j with
    | none => exact Or.inr ⟨hk, rfl, rfl⟩
    | some s => exact Or.inl rfl
  · exact Or.inl rfl

theorem touched_read {K : List Nat} {m m2 : EntryMap} (h : Touched K m m2) (k : Nat) :
    m2.read k = m.read k := by
  simp only [EntryMap.read]
  rcases h k with h0 | ⟨_, hn, hs⟩
  · rw [h0]
  · rw [hn, hs]
    rfl

theorem touched_keeps {K : List Nat} {m m2 : EntryMap} (h : Touched K m m2) (k : Nat)
    (s : VarSet) (hm : m k = some s) : m2 k = some s := by
  rcases h k with h0 | ⟨_, hn, _⟩
  · rw [h0, hm]
  · rw [hn] at hm
    cases hm

theorem touched_ne_none {K : List Nat} {m m2 : EntryMap} (h : Touched K m m2) (k : Nat)
    (hm : m k ≠ none) : m2 k ≠ none := by
  rcases h k with h0 | ⟨_, hn, _⟩
  · rw [h0]; exact hm
  · exact absurd hn hm

theorem touch_ne_none (m : EntryMap) (k : Nat) : m.touch k k ≠ none := by
  simp [EntryMap.touch]

/-- What one block step does to the entries of `use` and `def`. -/
theorem stepBlockE_entries (K : List Nat) (acc : ProgramState × Bool) (bb : BasicBlock)
    (hk : bb.id ∈ K) :
    Touched K acc.1.maps.useE (stepBlockE acc bb).1.maps.useE ∧
      Touched K acc.1.maps.defE (stepBlockE acc bb).1.maps.defE ∧
      (stepBlockE acc bb).1.maps.useE bb.id ≠ none := by
  refine ⟨touched_touch K _ _ hk, ?_, touch_ne_none _ _⟩
  show Touched K acc.1.maps.defE (if _ = ∅ then acc.1.maps.defE else acc.1.maps.defE.touch bb.id)
  split_ifs
  · exact touched_refl K _
  · exact touched_touch K _ _ hk

theorem foldl_stepBlockE_entries (K : List Nat) (l : List BasicBlock)
    (hl : ∀ bb ∈ l, bb.id ∈ K) (acc : ProgramState × Bool) :
    Touched K acc.1.maps.useE (l.foldl stepBlockE acc).1.maps.useE ∧
      Touched K acc.1.maps.defE (l.foldl stepBlockE acc).1.maps.defE ∧
      ∀ bb ∈ l, (l.foldl stepBlockE acc).1.maps.useE bb.id ≠ none := by
  induction l generalizing acc with
  | nil => exact ⟨touched_refl K _, touched_refl K _, by simp⟩
  | cons b l ih =>
    obtain ⟨h1, h2, h3⟩ := stepBlockE_entries K acc b (hl b (List.mem_cons_self _ _))
    obtain ⟨i1, i2, i3⟩ := ih (fun bb hbb => hl bb (List.mem_cons_of_mem _ hbb))
      (stepBlockE acc b)
    rw [List.foldl_cons]
    refine ⟨touched_trans h1 i1, touched_trans h2 i2, ?_⟩
    intro bb hbb
    rcases List.mem_cons.1 hbb with rfl | hbb
    · exact touched_ne_none i1 _ h3
    · exact i3 bb hbb

/-- One sweep creates entries of `use` and `def` only at blocks of the function,
only where there was none, holding the empty set; and it leaves every block of
the function with an entry in `use`. -/
theorem sweepE_entries (ps : ProgramState) :
    Touched (ps.fn.map BasicBlock.id) ps.maps.useE (sweepE ps).1.maps.useE ∧
      Touched (ps.fn.map BasicBlock.id) ps.maps.defE (sweepE ps).1.maps.defE ∧
      ∀ bb ∈ ps.fn, (sweepE ps).1.maps.useE bb.id ≠ none := by
  obtain ⟨h1, h2, h3⟩ := foldl_stepBlockE_entries (ps.fn.map BasicBlock.id) ps.fn.reverse
    (fun bb hbb => List.mem_map_of_mem _ (List.mem_reverse.1 hbb)) (ps, false)
  exact ⟨h1, h2, fun bb hbb => h3 bb (List.mem_reverse.2 hbb)⟩

/-- The same for the whole loop. -/
theorem whileChangedE_entries (fuel : Nat) (ps ps2 : ProgramState) (n : Nat)
    (h : whileChangedE fuel ps = some (ps2, n)) :
    ps2.fn = ps.fn ∧
      Touched (ps.fn.map BasicBlock.id) ps.maps.useE ps2.maps.useE ∧
      Touched (ps.fn.map BasicBlock.id) ps.maps.defE ps2.maps.defE ∧
      ∀ bb ∈ ps.fn, ps2.maps.useE bb.id ≠ none := by
  induction fuel generalizing ps n with
  | zero => simp [whileChangedE] at h
  | succ fuel ih =>
    obtain ⟨s1, s2, s3⟩ := sweepE_entries ps
    simp only [whileChangedE] at h
    by_cases hc : (sweepE ps).2 = true
    · rw [if_pos hc] at h
      cases hr : whileChangedE fuel (sweepE ps).1 with
      | none => rw [hr] at h; simp at h
      | some p =>
        obtain ⟨ps3, n3⟩ := p
        rw [hr] at h
        simp only [Option.map_some', Option.some.injEq, Prod.mk.injEq] at h
        obtain ⟨h1, _⟩ := h
        subst h1
        obtain ⟨i0, i1, i2, i3⟩ := ih _ _ hr
        rw [sweepE_fn] at i0 i1 i2 i3
        exact ⟨i0, touched_trans s1 i1, touched_trans s2 i2, i3⟩
    · rw [if_neg hc] at h
      simp only [Option.some.injEq, Prod.mk.injEq] at h
      obtain ⟨h1, _⟩ := h
      subst h1
      exact ⟨sweepE_fn ps, s1, s2, s3⟩

/-! ### The analysis on the test inputs -/

theorem scenario1_genKill :
    (start scenario1).use_ 0 = {vA, vB} ∧ (start scenario1).def_ 0 = {vX} := by
  decide

/-- Scenario 1: `run` performs two sweeps; the state after them. -/
theorem scenario1_run :
    (run scenario1 2).map Prod.snd = some 2 ∧
    (sweeps scenario1 (start scenario1) 2).liveIn 0 = {vA, vB} ∧
    (sweeps scenario1 (start scenario1) 2).liveOut 0 = ∅ := by
  decide

theorem scenario3_genKill :
    (start scenario3).use_ 0 = {vY} ∧ (start scenario3).def_ 0 = {vY} := by
  decide

theorem scenario3_sweeps :
    ((sweeps scenario3 (start scenario3) 1).liveIn 0 = {vY} ∧
      (sweeps scenario3 (start scenario3) 1).liveOut 0 = ∅) ∧
    ((sweeps scenario3 (start scenario3) 2).liveIn 0 = {vY} ∧
      (sweeps scenario3 (start scenario3) 2).liveOut 0 = {vY}) ∧
    (sweep scenario3 (start scenario3)).2 = true ∧
    (sweep scenario3 (sweeps scenario3 (start scenario3) 1)).2 = true ∧
    (sweep scenario3 (sweeps scenario3 (start scenario3) 2)).2 = false := by
  decide

theorem defThenUse_genKill :
    (start defThenUse).use_ 0 = {vA, vB, vX, vY} ∧ (start defThenUse).def_ 0 = {vX, vY} := by
  decide

/-- The two-block cycle: `run` performs three sweeps; the state after them. -/
theorem twoCycle_run :
    (run twoCycle 3).map Prod.snd = some 3 ∧
    (sweeps twoCycle (start twoCycle) 3).liveIn 0 = {vA, vB} ∧
    (sweeps twoCycle (start twoCycle) 3).liveOut 0 = {vA, vB, vX} ∧
    (sweeps twoCycle (start twoCycle) 3).liveIn 1 = {vA, vB, vX} ∧
    (sweeps twoCycle (start twoCycle) 3).liveOut 1 = {vA, vB, vX} := by
  decide

/-- The analysis object after `otherFn`, then `run` on `dangling`: block 5 holds
`liveIn = {c}`, and the two sweeps on `dangling` give its block
`liveOut = {c}` and `liveIn = {a, c}`. -/
theorem dangling_after_other :
    afterOther.liveIn 5 = {Value.argument 7} ∧
    (runOn dangling afterOther 3).map Prod.snd = some 2 ∧
    (sweeps dangling (computeGenKillVariables dangling afterOther) 2).liveOut 0 =
      {Value.argument 7} ∧
    (sweeps dangling (computeGenKillVariables dangling afterOther) 2).liveIn 0 =
      {vA, Value.argument 7} := by
  decide

/-! ### Claims -/

/-- C1. For a function whose blocks are distinct, `run` started on a fresh
analysis object stops, and in the state it stops with every block `B` has
`liveOut[B]` equal to the union of `liveIn[S]` over the successors `S` of `B`
and `liveIn[B]` equal to `use[B] ∪ (liveOut[B] \ def[B])`; the same holds of
whatever `run` returns with any amount of fuel.  Well-formedness of the
successor references is not needed. -/
theorem C1_fixpoint_equations (fn : Function) (hnd : (fn.map BasicBlock.id).Nodup) :
    (∃ fuel st n, run fn fuel = some (st, n) ∧
      ∀ bb ∈ fn, st.liveOut bb.id = bb.succs.toFinset.biUnion st.liveIn ∧
        st.liveIn bb.id = st.use_ bb.id ∪ (st.liveOut bb.id \ st.def_ bb.id)) ∧
    (∀ fuel st n, run fn fuel = some (st, n) →
      ∀ bb ∈ fn, st.liveOut bb.id = bb.succs.toFinset.biUnion st.liveIn ∧
        st.liveIn bb.id = st.use_ bb.id ∪ (st.liveOut bb.id \ st.def_ bb.id)) := by
  constructor
  · obtain ⟨fuel, st, n, hr, _, _, hc, _⟩ := run_result fn hnd
    exact ⟨fuel, st, n, hr, equations_of_unchanged fn st hc⟩
  · intro fuel st n hr
    exact equations_of_unchanged fn st (whileChanged_some fn fuel (start fn) st n hr).2.2.2.1

theorem C1_fixpoint_equations_witness :
    (twoCycle.map BasicBlock.id).Nodup ∧
    ((∃ fuel st n, run twoCycle fuel = some (st, n) ∧
      ∀ bb ∈ twoCycle, st.liveOut bb.id = bb.succs.toFinset.biUnion st.liveIn ∧
        st.liveIn bb.id = st.use_ bb.id ∪ (st.liveOut bb.id \ st.def_ bb.id)) ∧
    (∀ fuel st n, run twoCycle fuel = some (st, n) →
      ∀ bb ∈ twoCycle, st.liveOut bb.id = bb.succs.toFinset.biUnion st.liveIn ∧
        st.liveIn bb.id = st.use_ bb.id ∪ (st.liveOut bb.id \ st.def_ bb.id))) :=
  ⟨by decide, C1_fixpoint_equations twoCycle (by decide)⟩

/-- C2. For a function whose blocks are distinct, `run` returns, and in the
returned state, for every block `B` and value `v`: `v` is in `liveIn[B]` exactly
when some path `B = B0, B1, ..., Bk` along successor edges has `v` in `use[Bk]`
and in no `def[Bi]` with `i < k`; and `v` is in `liveOut[B]` exactly when such a
path starts at some successor of `B`. -/
theorem C2_live_paths (fn : Function) (hnd : (fn.map BasicBlock.id).Nodup) :
    ∃ fuel st n, run fn fuel = some (st, n) ∧
      ∀ bb ∈ fn, ∀ v,
        (v ∈ st.liveIn bb.id ↔
          ∃ p, LivePath fn (start fn).use_ (start fn).def_ v (bb.id :: p)) ∧
        (v ∈ st.liveOut bb.id ↔
          ∃ s ∈ bb.succs, ∃ p, LivePath fn (start fn).use_ (start fn).def_ v (s :: p)) := by
  obtain ⟨fuel, st, n, hr, _, hst, hc, _⟩ := run_result fn hnd
  have hu : st.use_ = (start fn).use_ := by rw [hst]; simp
  have hd : st.def_ = (start fn).def_ := by rw [hst]; simp
  have heq := (sweep_unchanged fn st hc).2
  have hin : ∀ k v, v ∈ st.liveIn k ↔
      ∃ p, LivePath fn (start fn).use_ (start fn).def_ v (k :: p) := by
    intro k v
    constructor
    · intro hv
      rw [hst] at hv
      exact sweeps_livePath fn n k v hv
    · rintro ⟨p, hp⟩
      rw [← hu, ← hd] at hp
      exact livePath_mem_liveIn fn st hu heq v p k hp
  refine ⟨fuel, st, n, hr, ?_⟩
  intro bb hbb v
  refine ⟨hin bb.id v, ?_⟩
  rw [(heq bb hbb).1, mem_unionSuccIn]
  constructor
  · rintro ⟨s, hs, hv⟩
    exact ⟨s, hs, (hin s v).1 hv⟩
  · rintro ⟨s, hs, hp⟩
    exact ⟨s, hs, (hin s v).2 hp⟩

theorem C2_live_paths_witness :
    (twoCycle.map BasicBlock.id).Nodup ∧
    ∃ fuel st n, run twoCycle fuel = some (st, n) ∧
      ∀ bb ∈ twoCycle, ∀ v,
        (v ∈ st.liveIn bb.id ↔
          ∃ p, LivePath twoCycle (start twoCycle).use_ (start twoCycle).def_ v (bb.id :: p)) ∧
        (v ∈ st.liveOut bb.id ↔
          ∃ s ∈ bb.succs, ∃ p,
            LivePath twoCycle (start twoCycle).use_ (start twoCycle).def_ v (s :: p)) :=
  ⟨by decide, C2_live_paths twoCycle (by decide)⟩

/-- C3. For a function whose blocks are distinct, whatever its successor
edges (self-loops and longer cycles included), the loop of `run` started from
empty `liveIn`/`liveOut` maps stops: with enough fuel `run` returns after some
number `n` of sweeps, and sweep number `n` left the flag `changed` down and the
state as it was. -/
theorem C3_terminates (fn : Function) (hnd : (fn.map BasicBlock.id).Nodup) :
    ∃ fuel st n, run fn fuel = some (st, n) ∧ 1 ≤ n ∧
      (sweep fn (sweeps fn (start fn) (n - 1))).2 = false ∧
      (sweep fn (sweeps fn (start fn) (n - 1))).1 = sweeps fn (start fn) (n - 1) ∧
      st = sweeps fn (start fn) (n - 1) := by
  obtain ⟨fuel, st, n, hr, h1, h3, _, _⟩ := run_result fn hnd
  obtain ⟨m, rfl, hlast, _⟩ := whileChanged_last fn fuel (start fn) st n hr
  have hsame := (sweep_unchanged fn _ hlast).1
  refine ⟨fuel, st, m + 1, hr, h1, ?_, ?_, ?_⟩
  · simpa using hlast
  · simpa using hsame
  · rw [h3]
    simpa [sweeps] using hsame

theorem C3_terminates_witness :
    (twoCycle.map BasicBlock.id).Nodup ∧
    ∃ fuel st n, run twoCycle fuel = some (st, n) ∧ 1 ≤ n ∧
      (sweep twoCycle (sweeps twoCycle (start twoCycle) (n - 1))).2 = false ∧
      (sweep twoCycle (sweeps twoCycle (start twoCycle) (n - 1))).1 =
        sweeps twoCycle (start twoCycle) (n - 1) ∧
      st = sweeps twoCycle (start twoCycle) (n - 1) :=
  ⟨by decide, C3_terminates twoCycle (by decide)⟩

/-- C4, as stated, fails.  On the self-loop block of scenario 3 (`y = add y, 1`)
there is one variable and one block, and `run` performs three sweeps: the first
puts `y` in `liveIn`, the second puts `y` in `liveOut`, the third changes
nothing.  On a function without blocks the product is zero and `run` performs
one sweep. -/
theorem C4_sweep_bound_counterexample :
    ((scenario3.map BasicBlock.id).Nodup ∧
      (run scenario3 3).map Prod.snd = some 3 ∧
      (allVariables scenario3).card * scenario3.length = 1 ∧
      ¬ (3 ≤ (allVariables scenario3).card * scenario3.length)) ∧
    ((run [] 1).map Prod.snd = some 1 ∧
      (allVariables []).card * ([] : Function).length = 0) := by
  decide

/-- C4, amended.  For a function whose blocks are distinct, `run` stops after
at most `|variables| * |blocks| + 2` sweeps, the last sweep (the one that
changes nothing) included. -/
theorem C4_sweep_bound (fn : Function) (hnd : (fn.map BasicBlock.id).Nodup) :
    ∃ fuel st n, run fn fuel = some (st, n) ∧
      n ≤ (allVariables fn).card * fn.length + 2 := by
  obtain ⟨st, n, hr, hn⟩ := run_terminates fn hnd
  exact ⟨_, st, n, hr, by rw [Nat.mul_comm]; exact hn⟩

theorem C4_sweep_bound_witness :
    (scenario3.map BasicBlock.id).Nodup ∧
    ∃ fuel st n, run scenario3 fuel = some (st, n) ∧
      n ≤ (allVariables scenario3).card * scenario3.length + 2 :=
  ⟨by decide, C4_sweep_bound scenario3 (by decide)⟩

/-- C5. Started from empty maps, for every function, block identity and
number of sweeps `n`, the `liveIn` and `liveOut` sets after `n` sweeps are
subsets of those after `n + 1` sweeps. -/
theorem C5_monotone_sweeps (fn : Function) (n : Nat) (b : Nat) :
    (sweeps fn (start fn) n).liveIn b ⊆ (sweeps fn (start fn) (n + 1)).liveIn b ∧
    (sweeps fn (start fn) n).liveOut b ⊆ (sweeps fn (start fn) (n + 1)).liveOut b :=
  ⟨(sweeps_ascending fn n).2.2.1 b, (sweeps_ascending fn n).2.2.2 b⟩

/-- C6. After `computeGenKillVariables` on a fresh analysis object, for every
block `B` of a function whose blocks are distinct, `use[B]` is exactly the set
of non-constant operands of the non-terminator instructions of `B`.  So an
operand of a non-terminator instruction is in `use[B]` also when an instruction
of `B` defines it, and a value that only terminators of `B` have as an operand
is not in `use[B]`. -/
theorem C6_use_exact (fn : Function) (hnd : (fn.map BasicBlock.id).Nodup)
    (B : BasicBlock) (hB : B ∈ fn) :
    (∀ v, v ∈ (computeGenKillVariables fn LivenessAnalysis.fresh).use_ B.id ↔
      ∃ inst ∈ B.insts, inst.isTerminator = false ∧ v ∈ inst.operands ∧
        v.isConstant = false) ∧
    (∀ v, DefinedIn B v → UsedIn B v →
      v ∈ (computeGenKillVariables fn LivenessAnalysis.fresh).use_ B.id) ∧
    (∀ v, (∀ inst ∈ B.insts, v ∈ inst.operands → inst.isTerminator = true) →
      v ∉ (computeGenKillVariables fn LivenessAnalysis.fresh).use_ B.id) := by
  have key : ∀ v, v ∈ (computeGenKillVariables fn LivenessAnalysis.fresh).use_ B.id ↔
      UsedIn B v := by
    intro v
    rw [show computeGenKillVariables fn LivenessAnalysis.fresh = start fn from rfl,
      mem_start_use]
    constructor
    · rintro ⟨bb, hbb, hid, hu⟩
      rw [block_eq_of_id_eq fn hnd hB hbb hid]
      exact hu
    · intro hu
      exact ⟨B, hB, rfl, hu⟩
  refine ⟨key, fun v _ hu => (key v).2 hu, ?_⟩
  intro v hterm hv
  obtain ⟨inst, hi, ht, hop, _⟩ := (key v).1 hv
  rw [hterm inst hi hop] at ht
  cases ht

theorem C6_use_exact_witness :
    (defThenUse.map BasicBlock.id).Nodup ∧ defThenUseBlock ∈ defThenUse ∧
    ((∀ v, v ∈ (computeGenKillVariables defThenUse LivenessAnalysis.fresh).use_
        defThenUseBlock.id ↔
      ∃ inst ∈ defThenUseBlock.insts, inst.isTerminator = false ∧ v ∈ inst.operands ∧
        v.isConstant = false) ∧
    (∀ v, DefinedIn defThenUseBlock v → UsedIn defThenUseBlock v →
      v ∈ (computeGenKillVariables defThenUse LivenessAnalysis.fresh).use_
        defThenUseBlock.id) ∧
    (∀ v, (∀ inst ∈ defThenUseBlock.insts, v ∈ inst.operands → inst.isTerminator = true) →
      v ∉ (computeGenKillVariables defThenUse LivenessAnalysis.fresh).use_
        defThenUseBlock.id)) :=
  ⟨by decide, by decide, C6_use_exact defThenUse (by decide) defThenUseBlock (by decide)⟩

/-- C7. After `computeGenKillVariables` on a fresh analysis object, for every
block `B` of a function whose blocks are distinct, `def[B]` is exactly the set
of results of the non-terminator instructions of `B` whose type is not void.
So when every instruction of `B` is void or a terminator, `def[B]` is empty. -/
theorem C7_def_exact (fn : Function) (hnd : (fn.map BasicBlock.id).Nodup)
    (B : BasicBlock) (hB : B ∈ fn) :
    (∀ v, v ∈ (computeGenKillVariables fn LivenessAnalysis.fresh).def_ B.id ↔
      ∃ inst ∈ B.insts, inst.isTerminator = false ∧ inst.isVoid = false ∧
        v = inst.value) ∧
    ((∀ inst ∈ B.insts, inst.isVoid = true ∨ inst.isTerminator = true) →
      (computeGenKillVariables fn LivenessAnalysis.fresh).def_ B.id = ∅) := by
  have key : ∀ v, v ∈ (computeGenKillVariables fn LivenessAnalysis.fresh).def_ B.id ↔
      DefinedIn B v := by
    intro v
    rw [show computeGenKillVariables fn LivenessAnalysis.fresh = start fn from rfl,
      mem_start_def]
    constructor
    · rintro ⟨bb, hbb, hid, hu⟩
      rw [block_eq_of_id_eq fn hnd hB hbb hid]
      exact hu
    · intro hu
      exact ⟨B, hB, rfl, hu⟩
  refine ⟨key, ?_⟩
  intro hall
  rw [Finset.eq_empty_iff_forall_not_mem]
  intro v hv
  obtain ⟨inst, hi, ht, hvoid, _⟩ := (key v).1 hv
  rcases hall inst hi with h | h
  · rw [h] at hvoid; cases hvoid
  · rw [h] at ht; cases ht

theorem C7_def_exact_witness :
    (defThenUse.map BasicBlock.id).Nodup ∧ defThenUseBlock ∈ defThenUse ∧
    ((∀ v, v ∈ (computeGenKillVariables defThenUse LivenessAnalysis.fresh).def_
        defThenUseBlock.id ↔
      ∃ inst ∈ defThenUseBlock.insts, inst.isTerminator = false ∧ inst.isVoid = false ∧
        v = inst.value) ∧
    ((∀ inst ∈ defThenUseBlock.insts, inst.isVoid = true ∨ inst.isTerminator = true) →
      (computeGenKillVariables defThenUse LivenessAnalysis.fresh).def_
        defThenUseBlock.id = ∅)) :=
  ⟨by decide, by decide, C7_def_exact defThenUse (by decide) defThenUseBlock (by decide)⟩

/-- C8. For every function and every block identity, no constant is in
`use`, `def`, or in `liveIn`/`liveOut` after any number of sweeps, and every
element of a `liveIn` or `liveOut` set is a non-constant operand of a
non-terminator instruction of the function; when the blocks are distinct,
`run` returns and the same holds of the state it returns. -/
theorem C8_no_constants (fn : Function) :
    (∀ n k v, v ∈ (start fn).use_ k ∪ (start fn).def_ k ∪
        (sweeps fn (start fn) n).liveIn k ∪ (sweeps fn (start fn) n).liveOut k →
      v.isConstant = false) ∧
    (∀ n k v, v ∈ (sweeps fn (start fn) n).liveIn k ∪ (sweeps fn (start fn) n).liveOut k →
      ∃ bb ∈ fn, ∃ inst ∈ bb.insts, inst.isTerminator = false ∧ v ∈ inst.operands ∧
        v.isConstant = false) ∧
    ((fn.map BasicBlock.id).Nodup →
      ∃ fuel st m, run fn fuel = some (st, m) ∧
        ∀ k v, v ∈ st.use_ k ∪ st.def_ k ∪ st.liveIn k ∪ st.liveOut k →
          v.isConstant = false ∧
          (v ∈ st.liveIn k ∪ st.liveOut k →
            ∃ bb ∈ fn, ∃ inst ∈ bb.insts, inst.isTerminator = false ∧ v ∈ inst.operands ∧
              v.isConstant = false)) := by
  have hlive : ∀ n k v,
      v ∈ (sweeps fn (start fn) n).liveIn k ∪ (sweeps fn (start fn) n).liveOut k →
      ∃ bb ∈ fn, UsedIn bb v := by
    intro n k v hv
    rw [← mem_usedValues]
    rcases Finset.mem_union.1 hv with h | h
    · exact (sweeps_subset_usedValues fn n).1 k h
    · exact (sweeps_subset_usedValues fn n).2 k h
  have hconst : ∀ n k v, v ∈ (start fn).use_ k ∪ (start fn).def_ k ∪
        (sweeps fn (start fn) n).liveIn k ∪ (sweeps fn (start fn) n).liveOut k →
      v.isConstant = false := by
    intro n k v hv
    simp only [Finset.mem_union] at hv
    rcases hv with ((hv | hv) | hv) | hv
    · obtain ⟨bb, _, _, hu⟩ := (mem_start_use fn k v).1 hv
      exact usedIn_not_constant hu
    · obtain ⟨bb, _, _, hu⟩ := (mem_start_def fn k v).1 hv
      exact definedIn_not_constant hu
    · obtain ⟨bb, _, hu⟩ := hlive n k v (Finset.mem_union_left _ hv)
      exact usedIn_not_constant hu
    · obtain ⟨bb, _, hu⟩ := hlive n k v (Finset.mem_union_right _ hv)
      exact usedIn_not_constant hu
  refine ⟨hconst, hlive, ?_⟩
  intro hnd
  obtain ⟨fuel, st, m, hr, _, hst, _, _⟩ := run_result fn hnd
  refine ⟨fuel, st, m, hr, ?_⟩
  intro k v hv
  have hu : st.use_ = (start fn).use_ := by rw [hst]; simp
  have hd : st.def_ = (start fn).def_ := by rw [hst]; simp
  rw [hu, hd, hst] at hv
  rw [hst]
  exact ⟨hconst m k v hv, hlive m k v⟩

/-- C9. A value that occurs as an operand only in terminator instructions is
in no `use` set, in no `liveIn` or `liveOut` set after any number of sweeps,
and (the blocks being distinct) in no `liveIn` or `liveOut` set of the state
`run` returns. -/
theorem C9_terminator_operands (fn : Function) (v : Value)
    (h : ∀ bb ∈ fn, ∀ inst ∈ bb.insts, v ∈ inst.operands → inst.isTerminator = true) :
    (∀ k, v ∉ (start fn).use_ k) ∧
    (∀ n k, v ∉ (sweeps fn (start fn) n).liveIn k ∧ v ∉ (sweeps fn (start fn) n).liveOut k) ∧
    ((fn.map BasicBlock.id).Nodup →
      ∃ fuel st m, run fn fuel = some (st, m) ∧
        ∀ k, v ∉ st.use_ k ∧ v ∉ st.liveIn k ∧ v ∉ st.liveOut k) := by
  have hnot : v ∉ usedValues fn := by
    rw [mem_usedValues]
    rintro ⟨bb, hbb, inst, hi, ht, hop, _⟩
    rw [h bb hbb inst hi hop] at ht
    cases ht
  have huse : ∀ k, v ∉ (start fn).use_ k :=
    fun k hv => hnot (start_use_subset_usedValues fn k hv)
  have hlive : ∀ n k, v ∉ (sweeps fn (start fn) n).liveIn k ∧
      v ∉ (sweeps fn (start fn) n).liveOut k :=
    fun n k => ⟨fun hv => hnot ((sweeps_subset_usedValues fn n).1 k hv),
      fun hv => hnot ((sweeps_subset_usedValues fn n).2 k hv)⟩
  refine ⟨huse, hlive, ?_⟩
  intro hnd
  obtain ⟨fuel, st, m, hr, _, hst, _, _⟩ := run_result fn hnd
  refine ⟨fuel, st, m, hr, ?_⟩
  intro k
  have hu : st.use_ = (start fn).use_ := by rw [hst]; simp
  rw [hu, hst]
  exact ⟨huse k, hlive m k⟩

theorem C9_terminator_operands_witness :
    (∀ bb ∈ condBranch, ∀ inst ∈ bb.insts,
      Value.argument 2 ∈ inst.operands → inst.isTerminator = true) ∧
    ((∀ k, Value.argument 2 ∉ (start condBranch).use_ k) ∧
    (∀ n k, Value.argument 2 ∉ (sweeps condBranch (start condBranch) n).liveIn k ∧
      Value.argument 2 ∉ (sweeps condBranch (start condBranch) n).liveOut k) ∧
    ((condBranch.map BasicBlock.id).Nodup →
      ∃ fuel st m, run condBranch fuel = some (st, m) ∧
        ∀ k, Value.argument 2 ∉ st.use_ k ∧ Value.argument 2 ∉ st.liveIn k ∧
          Value.argument 2 ∉ st.liveOut k)) :=
  ⟨by decide, C9_terminator_operands condBranch (Value.argument 2) (by decide)⟩

/-- C10. In a function whose blocks are distinct, a block `B` without
successors has `liveOut[B]` empty and `liveIn[B]` equal to `use[B]` at the end
of every sweep, whatever the state before the sweep and whatever the other
blocks are; in particular after each of the sweeps of `run`. -/
theorem C10_no_successors (fn : Function) (hnd : (fn.map BasicBlock.id).Nodup)
    (B : BasicBlock) (hB : B ∈ fn) (hs : B.succs = []) :
    (∀ la, (sweep fn la).1.liveOut B.id = ∅ ∧ (sweep fn la).1.liveIn B.id = la.use_ B.id) ∧
    (∀ n, (sweeps fn (start fn) (n + 1)).liveOut B.id = ∅ ∧
      (sweeps fn (start fn) (n + 1)).liveIn B.id = (start fn).use_ B.id) := by
  have key : ∀ la, (sweep fn la).1.liveOut B.id = ∅ ∧
      (sweep fn la).1.liveIn B.id = la.use_ B.id := by
    intro la
    obtain ⟨⟨m, hm⟩, hin⟩ := sweepFrom_after fn hnd (la, false) B hB
    rw [← sweep_eq_sweepFrom] at hm hin
    have hout : (sweep fn la).1.liveOut B.id = ∅ := by
      rw [hm, hs]
      rfl
    refine ⟨hout, ?_⟩
    rw [hin, hout]
    simp [transfer]
  refine ⟨key, ?_⟩
  intro n
  have h := key (sweeps fn (start fn) n)
  simpa [sweeps] using h

theorem C10_no_successors_witness :
    (defThenUse.map BasicBlock.id).Nodup ∧ defThenUseBlock ∈ defThenUse ∧
    defThenUseBlock.succs = [] ∧
    ((∀ la, (sweep defThenUse la).1.liveOut defThenUseBlock.id = ∅ ∧
      (sweep defThenUse la).1.liveIn defThenUseBlock.id = la.use_ defThenUseBlock.id) ∧
    (∀ n, (sweeps defThenUse (start defThenUse) (n + 1)).liveOut defThenUseBlock.id = ∅ ∧
      (sweeps defThenUse (start defThenUse) (n + 1)).liveIn defThenUseBlock.id =
        (start defThenUse).use_ defThenUseBlock.id)) :=
  ⟨by decide, by decide, by decide,
    C10_no_successors defThenUse (by decide) defThenUseBlock (by decide) (by decide)⟩


/-- C11. In a function whose blocks are distinct, a block `B` all of whose
instructions are terminators (so a block with no instruction, and a block whose
only instruction is its terminator) has `use[B]` and `def[B]` empty, and in the
state `run` returns `liveIn[B]` equals `liveOut[B]`, which is the union of
`liveIn[S]` over the successors `S` of `B`. -/
theorem C11_empty_block (fn : Function) (hnd : (fn.map BasicBlock.id).Nodup)
    (B : BasicBlock) (hB : B ∈ fn) (hB2 : ∀ inst ∈ B.insts, inst.isTerminator = true) :
    (computeGenKillVariables fn LivenessAnalysis.fresh).use_ B.id = ∅ ∧
    (computeGenKillVariables fn LivenessAnalysis.fresh).def_ B.id = ∅ ∧
    ∃ fuel st n, run fn fuel = some (st, n) ∧
      st.liveIn B.id = st.liveOut B.id ∧
      st.liveOut B.id = B.succs.toFinset.biUnion st.liveIn := by
  have huse : (start fn).use_ B.id = ∅ := by
    rw [Finset.eq_empty_iff_forall_not_mem]
    intro v hv
    obtain ⟨bb, hbb, hid, inst, hi, ht, _⟩ := (mem_start_use fn B.id v).1 hv
    rw [← block_eq_of_id_eq fn hnd hB hbb hid] at hi
    rw [hB2 inst hi] at ht
    cases ht
  have hdef : (start fn).def_ B.id = ∅ := by
    rw [Finset.eq_empty_iff_forall_not_mem]
    intro v hv
    obtain ⟨bb, hbb, hid, inst, hi, ht, _⟩ := (mem_start_def fn B.id v).1 hv
    rw [← block_eq_of_id_eq fn hnd hB hbb hid] at hi
    rw [hB2 inst hi] at ht
    cases ht
  refine ⟨huse, hdef, ?_⟩
  obtain ⟨fuel, st, n, hr, _, hst, hc, _⟩ := run_result fn hnd
  obtain ⟨hout, hin⟩ := equations_of_unchanged fn st hc B hB
  refine ⟨fuel, st, n, hr, ?_, hout⟩
  have hu : st.use_ = (start fn).use_ := by rw [hst]; simp
  have hd : st.def_ = (start fn).def_ := by rw [hst]; simp
  rw [hin, hu, hd, huse, hdef]
  simp

theorem C11_empty_block_witness :
    (passThrough.map BasicBlock.id).Nodup ∧ passBlock ∈ passThrough ∧
    (∀ inst ∈ passBlock.insts, inst.isTerminator = true) ∧
    ((computeGenKillVariables passThrough LivenessAnalysis.fresh).use_ passBlock.id = ∅ ∧
    (computeGenKillVariables passThrough LivenessAnalysis.fresh).def_ passBlock.id = ∅ ∧
    ∃ fuel st n, run passThrough fuel = some (st, n) ∧
      st.liveIn passBlock.id = st.liveOut passBlock.id ∧
      st.liveOut passBlock.id = passBlock.succs.toFinset.biUnion st.liveIn) :=
  ⟨by decide, by decide, by decide,
    C11_empty_block passThrough (by decide) passBlock (by decide) (by decide)⟩

/-- C12. For a function whose blocks are distinct and any list `order` that is
a permutation of its blocks, the loop whose sweeps visit the blocks in the
order of `order` stops, as `run` does, and both return the same `liveIn` and
`liveOut` set for every block identity. -/
theorem C12_order_independent (fn order : List BasicBlock)
    (hnd : (fn.map BasicBlock.id).Nodup) (hperm : order.Perm fn) :
    ∃ f1 st1 n1 f2 st2 n2, run fn f1 = some (st1, n1) ∧
      whileChangedInOrder order f2 (computeGenKillVariables fn LivenessAnalysis.fresh)
        = some (st2, n2) ∧
      ∀ k, st1.liveIn k = st2.liveIn k ∧ st1.liveOut k = st2.liveOut k := by
  have hp : order.reverse.Perm fn := (List.reverse_perm order).trans hperm
  have hnd2 : (order.reverse.map BasicBlock.id).Nodup := (hp.map BasicBlock.id).nodup_iff.2 hnd
  have hstart : start order.reverse = start fn := start_perm _ _ hp
  obtain ⟨f1, st1, n1, hr1, _, hst1, hc1, _⟩ := run_result fn hnd
  obtain ⟨f2, st2, n2, hr2, _, hst2, hc2, _⟩ := run_result order.reverse hnd2
  rw [hstart] at hst2
  refine ⟨f1, st1, n1, f2, st2, n2, hr1, ?_, ?_⟩
  · rw [whileChangedInOrder_eq]
    have : whileChanged order.reverse f2 (start order.reverse) = some (st2, n2) := hr2
    rw [hstart] at this
    exact this
  · rw [hst1, hst2]
    rw [hst1] at hc1
    rw [hst2] at hc2
    exact fixed_states_agree fn order.reverse (fun b => hp.mem_iff.symm) (start fn)
      (start_liveIn fn) (start_liveOut fn) n1 n2 hc1 hc2

theorem C12_order_independent_witness :
    (twoCycle.map BasicBlock.id).Nodup ∧ twoCycle.Perm twoCycle ∧
    ∃ f1 st1 n1 f2 st2 n2, run twoCycle f1 = some (st1, n1) ∧
      whileChangedInOrder twoCycle f2
        (computeGenKillVariables twoCycle LivenessAnalysis.fresh) = some (st2, n2) ∧
      ∀ k, st1.liveIn k = st2.liveIn k ∧ st1.liveOut k = st2.liveOut k :=
  ⟨by decide, by decide, C12_order_independent twoCycle twoCycle (by decide) (by decide)⟩

/-- Read through `operator[]`, the sweeps change only `liveIn` and `liveOut`: after any number of
sweeps from any state, and in whatever the loop returns, the `use` and `def`
maps are the maps of the state the loop started from, at every block identity;
so what `run` returns has the `use` and `def` maps that
`computeGenKillVariables` produced.  The function is an argument that no
definition of the embedding returns, as the code only reads it. -/
theorem sweeps_keep_use_def (fn : Function) :
    (∀ la n, (sweeps fn la n).use_ = la.use_ ∧ (sweeps fn la n).def_ = la.def_) ∧
    (∀ la fuel st n, whileChanged fn fuel la = some (st, n) →
      st.use_ = la.use_ ∧ st.def_ = la.def_) ∧
    (∀ fuel st n, run fn fuel = some (st, n) →
      st.use_ = (computeGenKillVariables fn LivenessAnalysis.fresh).use_ ∧
      st.def_ = (computeGenKillVariables fn LivenessAnalysis.fresh).def_) ∧
    ((fn.map BasicBlock.id).Nodup →
      ∃ fuel st n, run fn fuel = some (st, n) ∧
        ∀ k, st.use_ k = (computeGenKillVariables fn LivenessAnalysis.fresh).use_ k ∧
          st.def_ k = (computeGenKillVariables fn LivenessAnalysis.fresh).def_ k) := by
  have h1 : ∀ la n, (sweeps fn la n).use_ = la.use_ ∧ (sweeps fn la n).def_ = la.def_ :=
    fun la n => ⟨sweeps_use fn la n, sweeps_def fn la n⟩
  have h2 : ∀ la fuel st n, whileChanged fn fuel la = some (st, n) →
      st.use_ = la.use_ ∧ st.def_ = la.def_ := by
    intro la fuel st n hr
    rw [(whileChanged_some fn fuel la st n hr).2.2.1]
    exact h1 la n
  refine ⟨h1, h2, fun fuel st n hr => h2 _ fuel st n hr, ?_⟩
  intro hnd
  obtain ⟨fuel, st, n, hr, _⟩ := run_result fn hnd
  obtain ⟨hu, hd⟩ := h2 _ fuel st n hr
  exact ⟨fuel, st, n, hr, fun k => ⟨by rw [hu], by rw [hd]⟩⟩

/-- C13, as stated, fails.  On `passThrough` the block `B1` holds only its
terminator, so `computeGenKillVariables` records nothing for it: `use` has no
entry for `B1`.  The loop evaluates `use[&bb]` for every block (line 49), so
when it stops after three sweeps `use` holds an entry for `B1`, with the empty
set.  Likewise `def` has no entry for `B0` before the loop and one after it
(line 51, as `liveOut[B0]` is not empty). -/
theorem C13_entries_counterexample :
    passBlock ∈ passThrough ∧ passBlock.id = 1 ∧
    (startE passThrough AnalysisEntries.fresh).maps.useE 1 = none ∧
    (sweepE (startE passThrough AnalysisEntries.fresh)).1.maps.useE 1 = some ∅ ∧
    (runE passThrough AnalysisEntries.fresh 3).map Prod.snd = some 3 ∧
    (runE passThrough AnalysisEntries.fresh 3).map (fun r => r.1.maps.useE 1) =
      some (some ∅) ∧
    (startE passThrough AnalysisEntries.fresh).maps.defE 0 = none ∧
    (runE passThrough AnalysisEntries.fresh 3).map (fun r => r.1.maps.defE 0) =
      some (some ∅) := by
  decide

/-- C13, amended.  Whatever `run` returns, on any analysis object: the function
is the one it was given; `use[B]` and `def[B]` read, at every block identity,
as they did after `computeGenKillVariables`; every entry of `use` and `def`
that existed then still holds its set; an entry that did not exist then exists
now only for a block of the function, and holds the empty set; and every block
of the function has an entry in `use`.  For a function whose blocks are
distinct `run` on a fresh object does return, and what it returns reads as the
result of `run` in the sense of the first embedding. -/
theorem C13_use_def_entries (fn : Function) :
    (∀ e0 fuel ps n, runE fn e0 fuel = some (ps, n) →
      ps.fn = fn ∧
      (∀ k, ps.maps.useE.read k = (computeGenKillVariablesE fn e0).useE.read k ∧
        ps.maps.defE.read k = (computeGenKillVariablesE fn e0).defE.read k) ∧
      (∀ k s, (computeGenKillVariablesE fn e0).useE k = some s → ps.maps.useE k = some s) ∧
      (∀ k s, (computeGenKillVariablesE fn e0).defE k = some s → ps.maps.defE k = some s) ∧
      (∀ k, ps.maps.useE k = (computeGenKillVariablesE fn e0).useE k ∨
        (k ∈ fn.map BasicBlock.id ∧ (computeGenKillVariablesE fn e0).useE k = none ∧
          ps.maps.useE k = some ∅)) ∧
      (∀ k, ps.maps.defE k = (computeGenKillVariablesE fn e0).defE k ∨
        (k ∈ fn.map BasicBlock.id ∧ (computeGenKillVariablesE fn e0).defE k = none ∧
          ps.maps.defE k = some ∅)) ∧
      (∀ bb ∈ fn, ps.maps.useE bb.id ≠ none)) ∧
    ((fn.map BasicBlock.id).Nodup →
      ∃ fuel ps n, runE fn AnalysisEntries.fresh fuel = some (ps, n) ∧
        run fn fuel = some (ps.maps.values, n)) := by
  constructor
  · intro e0 fuel ps n hr
    obtain ⟨h0, h1, h2, h3⟩ := whileChangedE_entries fuel (startE fn e0) ps n hr
    exact ⟨h0, fun k => ⟨touched_read h1 k, touched_read h2 k⟩,
      fun k s => touched_keeps h1 k s, fun k s => touched_keeps h2 k s, h1, h2, h3⟩
  · intro hnd
    obtain ⟨fuel, st, n, hr, _⟩ := run_result fn hnd
    have hv := runE_values fn fuel
    rw [hr] at hv
    cases hE : runE fn AnalysisEntries.fresh fuel with
    | none => rw [hE] at hv; simp at hv
    | some p =>
      rw [hE] at hv
      simp only [Option.map_some', Option.some.injEq, Prod.mk.injEq] at hv
      obtain ⟨ps, m⟩ := p
      obtain ⟨hv1, hv2⟩ := hv
      simp only at hv1 hv2
      subst hv2
      exact ⟨fuel, ps, m, hE, by rw [hr, hv1]⟩

theorem C13_use_def_entries_witness :
    (passThrough.map BasicBlock.id).Nodup ∧
    ∃ fuel ps n, runE passThrough AnalysisEntries.fresh fuel = some (ps, n) ∧
      ps.fn = passThrough ∧
      (∀ k, ps.maps.useE.read k =
          (computeGenKillVariablesE passThrough AnalysisEntries.fresh).useE.read k ∧
        ps.maps.defE.read k =
          (computeGenKillVariablesE passThrough AnalysisEntries.fresh).defE.read k) ∧
      (∀ bb ∈ passThrough, ps.maps.useE bb.id ≠ none) := by
  refine ⟨by decide, ?_⟩
  obtain ⟨fuel, ps, n, hr, _⟩ := (C13_use_def_entries passThrough).2 (by decide)
  obtain ⟨h0, h1, _, _, _, _, h6⟩ :=
    (C13_use_def_entries passThrough).1 AnalysisEntries.fresh fuel ps n hr
  exact ⟨fuel, ps, n, hr, h0, h1, h6⟩

/-- C14. In a function whose blocks are distinct, a value in `def[B]` and not
in `use[B]` is in `liveIn[B]` after no number of sweeps and not in the
`liveIn[B]` that `run` returns, and it is in the returned `liveOut[B]` exactly
when it is in the returned `liveIn` of a successor of `B`.  On scenario 2
(`B1` defines `x`, `B2` reads it) `run` returns `liveIn[B2] = {x}`,
`liveOut[B2] = {}`, `liveOut[B1] = {x}`, `liveIn[B1] = {}`. -/
theorem C14_defined_not_used :
    (∀ (fn : Function) (B : BasicBlock) (v : Value),
      (fn.map BasicBlock.id).Nodup → B ∈ fn →
      v ∈ (start fn).def_ B.id → v ∉ (start fn).use_ B.id →
      (∀ n, v ∉ (sweeps fn (start fn) n).liveIn B.id) ∧
      ∃ fuel st m, run fn fuel = some (st, m) ∧ v ∉ st.liveIn B.id ∧
        (v ∈ st.liveOut B.id ↔ ∃ s ∈ B.succs, v ∈ st.liveIn s)) ∧
    (∃ st m, run scenario2 2 = some (st, m) ∧
      st.liveIn scenario2B2.id = {vX} ∧ st.liveOut scenario2B2.id = ∅ ∧
      st.liveOut scenario2B1.id = {vX} ∧ st.liveIn scenario2B1.id = ∅) := by
  constructor
  · intro fn B v hnd hB hd hu
    have hsw : ∀ n, v ∉ (sweeps fn (start fn) n).liveIn B.id := by
      intro n
      cases n with
      | zero => rw [sweeps, start_liveIn]; simp
      | succ n =>
        show v ∉ (sweep fn (sweeps fn (start fn) n)).1.liveIn B.id
        rw [inOfOut_sweep fn hnd _ B hB, mem_transfer]
        simp only [sweep_use, sweep_def, sweeps_use, sweeps_def]
        rintro (h | ⟨_, h⟩)
        · exact hu h
        · exact h hd
    refine ⟨hsw, ?_⟩
    obtain ⟨fuel, st, m, hr, _, hst, hc, _⟩ := run_result fn hnd
    refine ⟨fuel, st, m, hr, ?_, ?_⟩
    · rw [hst]; exact hsw m
    · rw [((sweep_unchanged fn st hc).2 B hB).1, mem_unionSuccIn]
  · obtain ⟨st, hr, hst⟩ := run_of_count scenario2 2 2 (by decide)
    refine ⟨st, 2, hr, ?_⟩
    rw [hst]
    decide

theorem C14_defined_not_used_witness :
    (scenario2.map BasicBlock.id).Nodup ∧ scenario2B1 ∈ scenario2 ∧
    vX ∈ (start scenario2).def_ scenario2B1.id ∧ vX ∉ (start scenario2).use_ scenario2B1.id ∧
    ((∀ n, vX ∉ (sweeps scenario2 (start scenario2) n).liveIn scenario2B1.id) ∧
      ∃ fuel st m, run scenario2 fuel = some (st, m) ∧ vX ∉ st.liveIn scenario2B1.id ∧
        (vX ∈ st.liveOut scenario2B1.id ↔ ∃ s ∈ scenario2B1.succs, vX ∈ st.liveIn s)) :=
  ⟨by decide, by decide, by decide, by decide,
    C14_defined_not_used.1 scenario2 scenario2B1 vX (by decide) (by decide) (by decide)
      (by decide)⟩

/-- C15. On scenario 3, the block `B` that is its own only successor and holds
`y = add y, 1`: `use[B] = {y}`, `def[B] = {y}`, the state after two sweeps from
the empty maps has `liveIn[B] = liveOut[B] = {y}`, and `run` returns that
state (after a third sweep, which changes nothing). -/
theorem C15_self_loop :
    scenario3.map BasicBlock.succs = [[0]] ∧ scenario3.map BasicBlock.id = [0] ∧
    (computeGenKillVariables scenario3 LivenessAnalysis.fresh).use_ 0 = {vY} ∧
    (computeGenKillVariables scenario3 LivenessAnalysis.fresh).def_ 0 = {vY} ∧
    (sweeps scenario3 (start scenario3) 2).liveIn 0 = {vY} ∧
    (sweeps scenario3 (start scenario3) 2).liveOut 0 = {vY} ∧
    ∃ st n, run scenario3 3 = some (st, n) ∧ st = sweeps scenario3 (start scenario3) 2 ∧
      st.liveIn 0 = {vY} ∧ st.liveOut 0 = {vY} := by
  refine ⟨by decide, by decide, by decide, by decide, by decide, by decide, ?_⟩
  obtain ⟨st, hr, hst⟩ := run_of_count scenario3 3 3 (by decide)
  have h3 : sweeps scenario3 (start scenario3) 3 = sweeps scenario3 (start scenario3) 2 :=
    (sweep_unchanged scenario3 _ (by decide)).1
  rw [h3] at hst
  refine ⟨st, 3, hr, hst, ?_, ?_⟩
  · rw [hst]; decide
  · rw [hst]; decide

/-- C16, as stated, fails.  The function `dangling` has one block whose
successor `5` is not a block of the function; `run` performs two sweeps and
returns `liveIn = {a}`, `liveOut = {}` for the block.  The code has no test of
the successor references: `liveIn[nextBB]` of the foreign block is an empty
set. -/
theorem C16_dangling_counterexample :
    (dangling.map BasicBlock.id).Nodup ∧
    (∃ bb ∈ dangling, ∃ s ∈ bb.succs, s ∉ dangling.map BasicBlock.id) ∧
    (run dangling 2).isSome = true ∧
    (run dangling 2).map Prod.snd = some 2 ∧
    (sweeps dangling (start dangling) 2).liveIn 0 = {vA} ∧
    (sweeps dangling (start dangling) 2).liveOut 0 = ∅ := by
  decide

/-- C16, amended.  Given a function whose blocks are distinct and in which some
block has a successor that is not a block of the function, `run` does not
abort: it returns a state.  This holds on a fresh analysis object and on one
used before for other functions (its sets lie in a finite set `U`, and it holds
no `liveIn` or `liveOut` set yet for the blocks of this function).  In the
returned state the `liveIn` set of an identity that is not a block of the
function is the set the object held for it before, and every block satisfies
both equations with these sets. -/
theorem C16_dangling_successor (fn : Function) (hnd : (fn.map BasicBlock.id).Nodup)
    (_hbad : ∃ bb ∈ fn, ∃ s ∈ bb.succs, s ∉ fn.map BasicBlock.id)
    (la0 : LivenessAnalysis) (U : VarSet)
    (hU : ∀ k, la0.use_ k ⊆ U ∧ la0.liveIn k ⊆ U ∧ la0.liveOut k ⊆ U)
    (hnew : ∀ bb ∈ fn, la0.liveIn bb.id = ∅ ∧ la0.liveOut bb.id = ∅) :
    ∃ fuel st n, runOn fn la0 fuel = some (st, n) ∧
      (∀ s, s ∉ fn.map BasicBlock.id → st.liveIn s = la0.liveIn s) ∧
      ∀ bb ∈ fn,
        st.liveOut bb.id = bb.succs.toFinset.biUnion st.liveIn ∧
        st.liveIn bb.id = st.use_ bb.id ∪ (st.liveOut bb.id \ st.def_ bb.id) := by
  obtain ⟨fuel, st, n, hr, hst, hc⟩ := runOn_result fn hnd la0 U hU hnew
  refine ⟨fuel, st, n, hr, ?_, equations_of_unchanged fn st hc⟩
  intro s hs
  rw [hst, (sweeps_frame fn _ n s hs).1, (computeGenKillVariables_live fn la0).1]

theorem C16_dangling_successor_witness :
    (dangling.map BasicBlock.id).Nodup ∧
    (∃ bb ∈ dangling, ∃ s ∈ bb.succs, s ∉ dangling.map BasicBlock.id) ∧
    (∀ k, afterOther.use_ k ⊆ usedValues otherFn ∧ afterOther.liveIn k ⊆ usedValues otherFn ∧
      afterOther.liveOut k ⊆ usedValues otherFn) ∧
    (∀ bb ∈ dangling, afterOther.liveIn bb.id = ∅ ∧ afterOther.liveOut bb.id = ∅) ∧
    ∃ fuel st n, runOn dangling afterOther fuel = some (st, n) ∧
      (∀ s, s ∉ dangling.map BasicBlock.id → st.liveIn s = afterOther.liveIn s) ∧
      ∀ bb ∈ dangling,
        st.liveOut bb.id = bb.succs.toFinset.biUnion st.liveIn ∧
        st.liveIn bb.id = st.use_ bb.id ∪ (st.liveOut bb.id \ st.def_ bb.id) :=
  ⟨by decide, by decide, afterOther_bounded, by decide,
    C16_dangling_successor dangling (by decide) (by decide) afterOther (usedValues otherFn)
      afterOther_bounded (by decide)⟩

/-- C17. In a function whose blocks are distinct, from any state: when a
sweep leaves the `liveIn` set of every block as it was, the state after the
sweep satisfies both equations at every block and the next sweep leaves the
flag `changed` down and the state as it is.  So the loop that stops when no
`liveIn` set changed and the loop of the code return the same state whenever
either returns (the code after the same number of sweeps or one more), and
started from the empty maps both return. -/
theorem C17_liveIn_criterion (fn : Function) (hnd : (fn.map BasicBlock.id).Nodup) :
    (∀ la, (∀ bb ∈ fn, (sweep fn la).1.liveIn bb.id = la.liveIn bb.id) →
      (∀ bb ∈ fn,
        (sweep fn la).1.liveOut bb.id = bb.succs.toFinset.biUnion (sweep fn la).1.liveIn ∧
        (sweep fn la).1.liveIn bb.id =
          (sweep fn la).1.use_ bb.id ∪
            ((sweep fn la).1.liveOut bb.id \ (sweep fn la).1.def_ bb.id)) ∧
      (sweep fn (sweep fn la).1).2 = false ∧
      (sweep fn (sweep fn la).1).1 = (sweep fn la).1) ∧
    (∀ la, (sweepIn fn la).1 = (sweep fn la).1 ∧
      ((sweepIn fn la).2 = false ↔
        ∀ bb ∈ fn, (sweep fn la).1.liveIn bb.id = la.liveIn bb.id)) ∧
    (∀ la fuel st n, whileInChanged fn fuel la = some (st, n) →
      ∃ m, whileChanged fn (fuel + 1) la = some (st, m) ∧ n ≤ m ∧ m ≤ n + 1) ∧
    (∀ la fuel st m, whileChanged fn fuel la = some (st, m) →
      ∃ n, whileInChanged fn fuel la = some (st, n) ∧ n ≤ m) ∧
    (∃ fuel st n m,
      whileInChanged fn fuel (computeGenKillVariables fn LivenessAnalysis.fresh)
        = some (st, n) ∧
      run fn fuel = some (st, m)) := by
  refine ⟨?_, ?_, ?_, ?_, ?_⟩
  · intro la h
    have heq := equations_of_liveIn_fixed fn hnd la h
    refine ⟨?_, sweep_of_equations fn _ heq⟩
    intro bb hbb
    obtain ⟨h1, h2⟩ := heq bb hbb
    rw [unionSuccIn_eq_biUnion] at h1
    rw [transfer_eq] at h2
    exact ⟨h1, h2⟩
  · exact fun la => ⟨sweepIn_state fn la, sweepIn_flag_iff fn hnd la⟩
  · exact fun la fuel st n h => whileChanged_of_whileInChanged fn hnd fuel la st n h
  · exact fun la fuel st m h => whileInChanged_of_whileChanged fn hnd fuel la st m h
  · obtain ⟨fuel, st, m, hr, _⟩ := run_result fn hnd
    obtain ⟨n, hn, _⟩ := whileInChanged_of_whileChanged fn hnd fuel (start fn) st m hr
    exact ⟨fuel, st, n, m, hn, hr⟩

theorem C17_liveIn_criterion_witness :
    (scenario3.map BasicBlock.id).Nodup ∧
    ((∀ la, (∀ bb ∈ scenario3, (sweep scenario3 la).1.liveIn bb.id = la.liveIn bb.id) →
      (∀ bb ∈ scenario3,
        (sweep scenario3 la).1.liveOut bb.id =
          bb.succs.toFinset.biUnion (sweep scenario3 la).1.liveIn ∧
        (sweep scenario3 la).1.liveIn bb.id =
          (sweep scenario3 la).1.use_ bb.id ∪
            ((sweep scenario3 la).1.liveOut bb.id \ (sweep scenario3 la).1.def_ bb.id)) ∧
      (sweep scenario3 (sweep scenario3 la).1).2 = false ∧
      (sweep scenario3 (sweep scenario3 la).1).1 = (sweep scenario3 la).1) ∧
    (∀ la, (sweepIn scenario3 la).1 = (sweep scenario3 la).1 ∧
      ((sweepIn scenario3 la).2 = false ↔
        ∀ bb ∈ scenario3, (sweep scenario3 la).1.liveIn bb.id = la.liveIn bb.id)) ∧
    (∀ la fuel st n, whileInChanged scenario3 fuel la = some (st, n) →
      ∃ m, whileChanged scenario3 (fuel + 1) la = some (st, m) ∧ n ≤ m ∧ m ≤ n + 1) ∧
    (∀ la fuel st m, whileChanged scenario3 fuel la = some (st, m) →
      ∃ n, whileInChanged scenario3 fuel la = some (st, n) ∧ n ≤ m) ∧
    (∃ fuel st n m,
      whileInChanged scenario3 fuel (computeGenKillVariables scenario3 LivenessAnalysis.fresh)
        = some (st, n) ∧
      run scenario3 fuel = some (st, m))) :=
  ⟨by decide, C17_liveIn_criterion scenario3 (by decide)⟩

/-- C18. For a function whose blocks are distinct, `run` returns a state whose
`liveIn`/`liveOut` maps solve both equations at every block and lie, at every
block, inside every pair of maps `(I, O)` that solves them. -/
theorem C18_least_solution (fn : Function) (hnd : (fn.map BasicBlock.id).Nodup) :
    ∃ fuel st n, run fn fuel = some (st, n) ∧
      (∀ bb ∈ fn, st.liveOut bb.id = bb.succs.toFinset.biUnion st.liveIn ∧
        st.liveIn bb.id = st.use_ bb.id ∪ (st.liveOut bb.id \ st.def_ bb.id)) ∧
      ∀ I O : VarMap,
        (∀ bb ∈ fn, O bb.id = bb.succs.toFinset.biUnion I ∧
          I bb.id = st.use_ bb.id ∪ (O bb.id \ st.def_ bb.id)) →
        ∀ bb ∈ fn, st.liveIn bb.id ⊆ I bb.id ∧ st.liveOut bb.id ⊆ O bb.id := by
  obtain ⟨fuel, st, n, hr, _, hst, hc, _⟩ := run_result fn hnd
  refine ⟨fuel, st, n, hr, equations_of_unchanged fn st hc, ?_⟩
  intro I O hsol bb _
  have hu : st.use_ = (start fn).use_ := by rw [hst]; simp
  have hd : st.def_ = (start fn).def_ := by rw [hst]; simp
  have hsol2 : ∀ bb ∈ fn, O bb.id = unionSuccIn I bb.succs ∧
      I bb.id = transfer ((start fn).use_ bb.id) ((start fn).def_ bb.id) (O bb.id) := by
    intro b hb
    obtain ⟨h1, h2⟩ := hsol b hb
    rw [unionSuccIn_eq_biUnion, transfer_eq, ← hu, ← hd]
    exact ⟨h1, h2⟩
  have h := sweeps_le_solution fn I O (start fn) hsol2
    (fun k => by rw [start_liveIn]; exact Finset.empty_subset _)
    (fun k => by rw [start_liveOut]; exact Finset.empty_subset _) n
  rw [hst]
  exact ⟨h.1 bb.id, h.2 bb.id⟩

theorem C18_least_solution_witness :
    (twoCycle.map BasicBlock.id).Nodup ∧
    ∃ fuel st n, run twoCycle fuel = some (st, n) ∧
      (∀ bb ∈ twoCycle, st.liveOut bb.id = bb.succs.toFinset.biUnion st.liveIn ∧
        st.liveIn bb.id = st.use_ bb.id ∪ (st.liveOut bb.id \ st.def_ bb.id)) ∧
      ∀ I O : VarMap,
        (∀ bb ∈ twoCycle, O bb.id = bb.succs.toFinset.biUnion I ∧
          I bb.id = st.use_ bb.id ∪ (O bb.id \ st.def_ bb.id)) →
        ∀ bb ∈ twoCycle, st.liveIn bb.id ⊆ I bb.id ∧ st.liveOut bb.id ⊆ O bb.id :=
  ⟨by decide, C18_least_solution twoCycle (by decide)⟩

/-- C19. In a function whose blocks are distinct and in which every successor
of a block is a block that comes strictly later in the layout, the state after
the first sweep of `run` satisfies both equations at every block, and `run`
stops after at most two sweeps, with that state. -/
theorem C19_topological (fn : Function) (hnd : (fn.map BasicBlock.id).Nodup)
    (htopo : TopoOrdered fn) :
    (∀ bb ∈ fn,
      (sweeps fn (start fn) 1).liveOut bb.id =
        bb.succs.toFinset.biUnion (sweeps fn (start fn) 1).liveIn ∧
      (sweeps fn (start fn) 1).liveIn bb.id =
        (sweeps fn (start fn) 1).use_ bb.id ∪
          ((sweeps fn (start fn) 1).liveOut bb.id \ (sweeps fn (start fn) 1).def_ bb.id)) ∧
    ∃ st n, run fn 2 = some (st, n) ∧ n ≤ 2 ∧ st = sweeps fn (start fn) 1 := by
  have heq := sweepFrom_topoOrdered fn hnd htopo (start fn, false)
  rw [← sweep_eq_sweepFrom] at heq
  constructor
  · intro bb hbb
    obtain ⟨h1, h2⟩ := heq bb hbb
    rw [unionSuccIn_eq_biUnion] at h1
    rw [transfer_eq] at h2
    exact ⟨h1, h2⟩
  · by_cases hc : (sweep fn (start fn)).2 = true
    · refine ⟨(sweep fn (start fn)).1, 2, ?_, le_refl _, rfl⟩
      show whileChanged fn 2 (start fn) = _
      rw [whileChanged, if_pos hc, whileChanged_of_equations fn _ 0 heq]
      rfl
    · refine ⟨(sweep fn (start fn)).1, 1, ?_, by omega, rfl⟩
      show whileChanged fn 2 (start fn) = _
      rw [whileChanged, if_neg hc]

theorem C19_topological_witness :
    (scenario2.map BasicBlock.id).Nodup ∧ TopoOrdered scenario2 ∧
    ((∀ bb ∈ scenario2,
      (sweeps scenario2 (start scenario2) 1).liveOut bb.id =
        bb.succs.toFinset.biUnion (sweeps scenario2 (start scenario2) 1).liveIn ∧
      (sweeps scenario2 (start scenario2) 1).liveIn bb.id =
        (sweeps scenario2 (start scenario2) 1).use_ bb.id ∪
          ((sweeps scenario2 (start scenario2) 1).liveOut bb.id \
            (sweeps scenario2 (start scenario2) 1).def_ bb.id)) ∧
    ∃ st n, run scenario2 2 = some (st, n) ∧ n ≤ 2 ∧
      st = sweeps scenario2 (start scenario2) 1) :=
  ⟨by decide, by decide, C19_topological scenario2 (by decide) (by decide)⟩

end Liveness
